import Mathlib

/-! Verification of violet, a minimal HTTP/1.1 client (`src/main.cpp`).

Shallow embedding of the header table (`FieldTable`), the request serializer
(`HttpRequest::ToString`), the status-line reader (`HttpResponce::Parse`) and the
exchange loop (`HttpClient::SendRequest`), followed by the properties proved about them.

Conventions of the embedding:
* a `std::string` is a list of characters (one character per byte);
* an iterator of the header table is its offset from `begin()`, so `end()` is the
  number of entries;
* `int` objects are integers; `%d` converts as `strtol` does into a 64-bit `long`
  (saturating), and the store into a 32-bit object keeps the value modulo `2 ^ 32`;
* `sf::TcpSocket` is an external collaborator: it is represented by the results its
  calls report.
-/

namespace Violet

/-- A `std::string`. -/
abbrev Str := List Char

/-! ## Decimal output -/

/-- The function `std::to_string(size_t)`, also `operator<<` on a non-negative integer:
the decimal numeral without leading zeros. -/
def to_string (n : Nat) : Str := Nat.toDigits 10 n

/-- The call `stream << i` for an `int`: the decimal numeral, with a minus sign when
negative. -/
def showInt : Int → Str
  | Int.ofNat n => to_string n
  | Int.negSucc n => '-' :: to_string (n + 1)

/-- The decimal representation of a natural number, as the spec uses the words (not a
function of the source): the base-10 digits of the number, most significant first, each
written as the character with code 48 plus the digit; zero is written `0`. -/
def decimalNat (n : Nat) : Str :=
  if n = 0 then ['0'] else (Nat.digits 10 n).reverse.map (fun d => Char.ofNat (d + 48))

/-- The decimal representation of an integer: for a negative one, a minus sign and the
representation of its absolute value. -/
def decimal (i : Int) : Str :=
  if i < 0 then '-' :: decimalNat i.natAbs else decimalNat i.natAbs

/-! ## `class FieldTable` -/

/-- The class `FieldTable`: a `std::vector` of (name, value) pairs. -/
structure FieldTable where
  entries : List (Str × Str) := []
deriving DecidableEq, Repr

namespace FieldTable

/-- Iterator `begin()`. -/
def begin_ (_t : FieldTable) : Nat := 0

/-- Iterator `end()`. -/
def end_ (t : FieldTable) : Nat := t.entries.length

/-- Method `Add`: `push_back` of the pair. -/
def Add (t : FieldTable) (key value : Str) : FieldTable :=
  { entries := t.entries ++ [(key, value)] }

/-- The `for` loop of `Find`: `it` is the iterator, the list holds the entries from `it`
to `end()`. The loop returns `it` at the first entry with `it->first == key`, and the
end iterator when it runs off the entries. -/
def Find.loop (key : Str) : List (Str × Str) → Nat → Nat
  | [], it => it
  | field :: rest, it => if field.1 = key then it else Find.loop key rest (it + 1)

/-- Method `Find`. -/
def Find (t : FieldTable) (key : Str) : Nat :=
  Find.loop key t.entries t.begin_

/-- Method `Remove`: erases the entry `Find` returned, if any. -/
def Remove (t : FieldTable) (key : Str) : FieldTable :=
  let it := t.Find key
  if it ≠ t.end_ then { entries := t.entries.eraseIdx it } else t

/-- Method `HasField`. -/
def HasField (t : FieldTable) (key : Str) : Bool :=
  decide (t.Find key ≠ t.end_)

end FieldTable

/-- The spec's "case-insensitive" comparison of two names (not present in the source):
equality after lower-casing the ASCII letters. -/
def eqIgnoreCase (a b : Str) : Bool :=
  decide (a.map Char.toLower = b.map Char.toLower)

/-! ## `struct HttpRequest` -/

namespace HttpRequest

/-- Enumerator `Method::Get`. -/
def Get : Int := 0

/-- The array `s_MethodsTable` of `ToString`. -/
def s_MethodsTable : List Str := [['G', 'E', 'T']]

end HttpRequest

/-- The struct `HttpRequest`. `Method` holds the integer value of the enumeration
(`(int)Method` in the source). -/
structure HttpRequest where
  URI : Str := ['/']
  Method : Int := HttpRequest.Get
  Fields : FieldTable := {}
  MajorVersion : Int := 1
  MinorVersion : Int := 1
  Body : Str := []
deriving DecidableEq, Repr

namespace HttpRequest

/-- The read `s_MethodsTable[(int)Method]`. Outside the bounds of the array the read
is undefined in C++: the embedding gives `none` there (`methodTokenIn` below takes what
lies after the array as a parameter). -/
def methodToken (m : Int) : Option Str :=
  if 0 ≤ m then s_MethodsTable[m.toNat]? else none

/-- Method `ToString`. The `std::stringstream` is the list of characters written so
far; each line below is one statement of the source. -/
def ToString (r : HttpRequest) : Option Str := do
  let token ← methodToken r.Method
  let stream : Str := []
  let stream := stream ++ token ++ [' '] ++ r.URI ++ [' ']
  let stream := stream ++ ['H', 'T', 'T', 'P', '/'] ++ showInt r.MajorVersion ++ ['.']
    ++ showInt r.MinorVersion ++ ['\r', '\n']
  let stream := r.Fields.entries.foldl
    (fun stream field => stream ++ field.1 ++ [':', ' '] ++ field.2 ++ ['\r', '\n']) stream
  let stream := stream ++ ['\r', '\n']
  let stream := stream ++ r.Body
  pure stream

/-- The read `s_MethodsTable[(int)Method]` as the machine makes it, with no bounds check:
the table is followed in memory by other words, and `beyond` lists what these words are as
`const char*`, in address order: a pointer to a C string, or the null pointer (`none`).
An index inside the table gives the entry of the table whatever `beyond` is, an index
past its end gives the pointer found there; the outer `none` is a read of memory the list
does not describe. -/
def methodTokenIn (beyond : List (Option Str)) (m : Int) : Option (Option Str) :=
  if 0 ≤ m then (s_MethodsTable.map some ++ beyond)[m.toNat]? else none

/-- Method `ToString`, statement by statement as above, with what lies in memory after
`s_MethodsTable` as a parameter. Writing a null `const char*` puts the stream in its
error state: nothing is written then or afterwards, and `str()` is empty. -/
def ToStringIn (beyond : List (Option Str)) (r : HttpRequest) : Option Str := do
  let pointer ← methodTokenIn beyond r.Method
  match pointer with
  | none => pure []
  | some token =>
    let stream : Str := []
    let stream := stream ++ token ++ [' '] ++ r.URI ++ [' ']
    let stream := stream ++ ['H', 'T', 'T', 'P', '/'] ++ showInt r.MajorVersion ++ ['.']
      ++ showInt r.MinorVersion ++ ['\r', '\n']
    let stream := r.Fields.entries.foldl
      (fun stream field => stream ++ field.1 ++ [':', ' '] ++ field.2 ++ ['\r', '\n']) stream
    let stream := stream ++ ['\r', '\n']
    let stream := stream ++ r.Body
    pure stream

/-- The header line `ToString` writes for one entry of the table. -/
def headerLine (field : Str × Str) : Str :=
  field.1 ++ [':', ' '] ++ field.2 ++ ['\r', '\n']

/-- The requests whose serialized lines can be told apart again: no CR in the URI, no CR
and no colon in a header name, no CR in a header value. -/
def Delimited (r : HttpRequest) : Prop :=
  '\r' ∉ r.URI ∧
    ∀ field ∈ r.Fields.entries, '\r' ∉ field.1 ∧ ':' ∉ field.1 ∧ '\r' ∉ field.2

instance (r : HttpRequest) : Decidable r.Delimited := by
  unfold Delimited
  infer_instance

/-- The request line of `ToString`, without its CR LF. -/
def requestLine (r : HttpRequest) : Str :=
  ['G', 'E', 'T', ' '] ++ r.URI ++ [' ', 'H', 'T', 'T', 'P', '/'] ++ showInt r.MajorVersion
    ++ ['.'] ++ showInt r.MinorVersion

/-- The header line of one entry, without its CR LF. -/
def fieldLine (field : Str × Str) : Str :=
  field.1 ++ [':', ' '] ++ field.2

/-- The requests whose URI, header names and header values hold neither CR nor LF. -/
def NoLineBreak (r : HttpRequest) : Prop :=
  '\r' ∉ r.URI ∧ '\n' ∉ r.URI ∧
    ∀ field ∈ r.Fields.entries,
      '\r' ∉ field.1 ∧ '\n' ∉ field.1 ∧ '\r' ∉ field.2 ∧ '\n' ∉ field.2

instance (r : HttpRequest) : Decidable r.NoLineBreak := by
  unfold NoLineBreak
  infer_instance

end HttpRequest

/-- The request `main` builds before it calls `SendRequest`. -/
def mainRequest : HttpRequest :=
  let uri : Str := "/http-basics".toList
  let hostname : Str := "www.steves-internet-guide.com".toList
  let req : HttpRequest := {}
  let req := { req with URI := uri }
  let req := { req with Method := HttpRequest.Get }
  let req := { req with Fields := req.Fields.Add "Connection".toList "keep-alive".toList }
  let req := { req with Fields := req.Fields.Add "User-Agent".toList "violet".toList }
  let req := { req with Fields := req.Fields.Add "Host".toList "violet".toList }
  let req := { req with Fields := req.Fields.Add "Host".toList hostname }
  let req := { req with
    Fields := req.Fields.Add "Content-Length".toList (to_string req.Body.length) }
  req

/-- Splitting a string on CR LF (a notion of the spec, not a function of the source):
the pieces between the occurrences of CR LF, found from left to right. -/
def splitCRLF : Str → List Str
  | [] => [[]]
  | [c] => [[c]]
  | c :: d :: rest =>
    if c = '\r' ∧ d = '\n' then [] :: splitCRLF rest
    else
      match splitCRLF (d :: rest) with
      | line :: lines => (c :: line) :: lines
      | [] => [[c]]

/-! ## `std::sscanf` -/

/-- The C function `isspace` in the "C" locale: space, `\t`, `\n`, `\v`, `\f`, `\r`. -/
def isspace (c : Char) : Bool :=
  c = ' ' || c = '\t' || c = '\n' || c = Char.ofNat 11 || c = Char.ofNat 12 || c = '\r'

/-- The C function `isdigit`. -/
def isdigit (c : Char) : Bool :=
  decide (48 ≤ c.toNat ∧ c.toNat ≤ 57)

/-- The value of a run of decimal digits. -/
def digitsValue (ds : Str) : Nat :=
  ds.foldl (fun acc c => 10 * acc + (c.toNat - 48)) 0

/-- The largest `long` (64 bits). -/
def LONG_MAX : Int := 2 ^ 63 - 1

/-- The smallest `long` (64 bits). -/
def LONG_MIN : Int := -(2 ^ 63)

/-- The result of `strtol` for a numeral of the given value: the value itself when a
`long` holds it, else `LONG_MAX` or `LONG_MIN`. -/
def toLong (v : Int) : Int := max LONG_MIN (min v LONG_MAX)

/-- The conversion `%d`: white space is skipped, then an optional sign and the longest
run of decimal digits are taken and converted as `strtol` does. The result is the value
and the unread input; `none` is a matching failure (no digit). -/
def scanInt (input : Str) : Option (Int × Str) :=
  let input := input.dropWhile isspace
  let signed : Bool × Str :=
    match input with
    | '-' :: rest => (true, rest)
    | '+' :: rest => (false, rest)
    | _ => (false, input)
  let digits := signed.2.takeWhile isdigit
  if digits = [] then none
  else
    let value : Int := digitsValue digits
    some (toLong (if signed.1 then -value else value), signed.2.dropWhile isdigit)

/-- The directives of a `scanf` format that the source uses. -/
inductive Directive where
  /-- An ordinary character: it must be the next character of the input. -/
  | lit (c : Char)
  /-- A white-space character of the format: any run of white space, also none. -/
  | space
  /-- The conversion `%d`. -/
  | int
deriving DecidableEq, Repr

/-- The function `sscanf` on a list of directives: the values converted, in order. The
scan stops at the first directive that does not match; the targets of the later
conversions are then left untouched. -/
def sscanf : List Directive → Str → List Int
  | [], _ => []
  | Directive.lit c :: fmt, input =>
    match input with
    | d :: rest => if d = c then sscanf fmt rest else []
    | [] => []
  | Directive.space :: fmt, input => sscanf fmt (input.dropWhile isspace)
  | Directive.int :: fmt, input =>
    match scanInt input with
    | some (value, rest) => value :: sscanf fmt rest
    | none => []

/-- The format `"HTTP/%d.%d %d\r\n"` of `Parse`. -/
def statusFormat : List Directive :=
  [Directive.lit 'H', Directive.lit 'T', Directive.lit 'T', Directive.lit 'P',
   Directive.lit '/', Directive.int, Directive.lit '.', Directive.int, Directive.space,
   Directive.int, Directive.space, Directive.space]

/-- The member `c_str()`: as a C string the bytes end at the first NUL. -/
def c_str (s : Str) : Str := s.takeWhile (fun c => c ≠ Char.ofNat 0)

/-- A converted `long` as stored in a 32-bit `int`. -/
def toInt32 (v : Int) : Int := (v + 2 ^ 31) % 2 ^ 32 - 2 ^ 31

/-- A converted `long` as stored in a 32-bit object and read back as `unsigned int`. -/
def toUInt32 (v : Int) : Nat := (v % 2 ^ 32).toNat

/-- The call `std::getline(stream, buffer, delim)` on a fresh stream: the characters
before the first delimiter. -/
def getline (s : Str) (delim : Char) : Str := s.takeWhile (fun c => c ≠ delim)

/-! ## `struct HttpResponce` -/

namespace HttpResponce

/-- The values of the enumerators of `enum Status`, in declaration order. -/
def Status.catalog : List Int :=
  [200, 201, 202, 204, 205, 206, 300, 301, 302, 304, 400, 401, 403, 404, 407,
   500, 501, 502, 503, 504, 505, 1000, 1001]

/-- Enumerator `Status::ConnectionFailed`. -/
def Status.ConnectionFailed : Int := 1001

end HttpResponce

/-- The struct `HttpResponce`. `Status` holds the integer value of the enumeration. -/
structure HttpResponce where
  Fields : FieldTable := {}
  Status : Int := HttpResponce.Status.ConnectionFailed
  MajorVersion : Nat := 0
  MinorVersion : Nat := 0
  Body : Str := []
deriving DecidableEq, Repr

namespace HttpResponce

/-- The function `Parse`. The local `int status` of the source is not initialised: the
argument `status` is the value it happens to hold, which is the one converted to
`Status` when `sscanf` does not reach the third conversion. -/
def Parse (responce : Str) (status : Int) : HttpResponce :=
  let result : HttpResponce := {}
  let converted := sscanf statusFormat (c_str responce)
  let result :=
    match converted with
    | major :: _ => { result with MajorVersion := toUInt32 major }
    | [] => result
  let result :=
    match converted with
    | _ :: minor :: _ => { result with MinorVersion := toUInt32 minor }
    | _ => result
  let status :=
    match converted with
    | _ :: _ :: code :: _ => toInt32 code
    | _ => status
  let result := { result with Status := status }
  let _buffer := getline responce '\n'
  result

end HttpResponce

/-! ## `struct HttpClient` -/

namespace Socket

/-- The enumeration `sf::Socket::Status`. -/
inductive Status where
  | Done
  | NotReady
  | Partial
  | Disconnected
  | Error
deriving DecidableEq, Repr

end Socket

/-- The collaborator `sf::TcpSocket`, which is not part of the repository: the status its
`send` reports, the results of its successive `receive` calls (status and the bytes put
in the buffer), and the record of what was handed to `send`. A `receive` after the last
listed result reports `Disconnected`. -/
structure TcpSocket where
  sendStatus : Socket.Status
  incoming : List (Socket.Status × Str)
  sent : List Str := []
deriving DecidableEq, Repr

namespace TcpSocket

/-- The call `Socket.send(data, size)`. -/
def send (s : TcpSocket) (data : Str) : Socket.Status × TcpSocket :=
  (s.sendStatus, { s with sent := s.sent ++ [data] })

/-- The contract of `receive(buffer, capacity, size)`: no call reports more bytes than
the buffer holds. -/
def Bounded (s : TcpSocket) (capacity : Nat) : Prop :=
  ∀ r ∈ s.incoming, r.2.length ≤ capacity

/-- A socket whose `send` reports `Done` and whose `receive` calls report `Done` with
the given pieces, one per call, and then `Disconnected`. -/
def delivering (pieces : List Str) : TcpSocket :=
  { sendStatus := Socket.Status.Done
    incoming := pieces.map (fun piece => (Socket.Status.Done, piece)) }

end TcpSocket

/-- The struct `HttpClient`. -/
structure HttpClient where
  Socket : TcpSocket
deriving DecidableEq, Repr

namespace HttpClient

/-- The `while` loop of `SendRequest`, one `Socket.receive` call per step: the list is
the results still to come, `received` the string accumulated so far. The results are the
final `received` and the results not consumed. -/
def SendRequest.loop :
    List (Socket.Status × Str) → Str → Str × List (Socket.Status × Str)
  | [], received => (received, [])
  | (status, data) :: rest, received =>
    if status = Socket.Status.Done then SendRequest.loop rest (received ++ data)
    else (received, rest)

/-- Method `SendRequest`: the string returned and the client afterwards. `none` only
when `ToString` is undefined. -/
def SendRequest (c : HttpClient) (request : HttpRequest) : Option (Str × HttpClient) := do
  let http_request ← request.ToString
  let sent := c.Socket.send http_request
  if sent.1 = Socket.Status.Done then
    let done := SendRequest.loop sent.2.incoming []
    pure (done.1, { Socket := { sent.2 with incoming := done.2 } })
  else
    pure ([], { Socket := sent.2 })

end HttpClient

/-! ## Properties of `FieldTable` -/

namespace FieldTable

theorem Find.loop_ge (key : Str) (l : List (Str × Str)) (it : Nat) :
    it ≤ Find.loop key l it := by
  induction l generalizing it with
  | nil => simp [Find.loop]
  | cons p rest ih =>
    simp only [Find.loop]
    split
    · exact le_rfl
    · exact le_trans (Nat.le_succ it) (ih (it + 1))

theorem Find.loop_le (key : Str) (l : List (Str × Str)) (it : Nat) :
    Find.loop key l it ≤ it + l.length := by
  induction l generalizing it with
  | nil => simp [Find.loop]
  | cons p rest ih =>
    simp only [Find.loop, List.length_cons]
    split
    · omega
    · have := ih (it + 1); omega

/-- The loop is the offset of the first exact match: a split of the entries around it. -/
theorem Find.loop_lt_split (key : Str) (l : List (Str × Str)) (it : Nat)
    (h : Find.loop key l it < it + l.length) :
    ∃ a value b, l = a ++ (key, value) :: b ∧ (∀ e ∈ a, e.1 ≠ key) ∧
      Find.loop key l it = it + a.length := by
  induction l generalizing it with
  | nil => simp [Find.loop] at h
  | cons p rest ih =>
    simp only [Find.loop] at h ⊢
    split
    · rename_i hp
      refine ⟨[], p.2, rest, ?_, by simp, by simp⟩
      rw [← hp]; rfl
    · rename_i hp
      rw [if_neg hp] at h
      have h2 : Find.loop key rest (it + 1) < it + 1 + rest.length := by
        simp only [List.length_cons] at h; omega
      obtain ⟨a, value, b, hl, ha, hi⟩ := ih (it + 1) h2
      refine ⟨p :: a, value, b, by simp [hl], ?_, by simp [hi]; omega⟩
      intro e he
      rcases List.mem_cons.mp he with rfl | he
      · exact hp
      · exact ha e he

theorem Find.loop_eq_end_iff (key : Str) (l : List (Str × Str)) (it : Nat) :
    Find.loop key l it = it + l.length ↔ ∀ e ∈ l, e.1 ≠ key := by
  induction l generalizing it with
  | nil => simp [Find.loop]
  | cons p rest ih =>
    simp only [Find.loop, List.length_cons, List.mem_cons, forall_eq_or_imp]
    split
    · rename_i hp
      constructor
      · intro h; omega
      · intro h; exact absurd hp h.1
    · rename_i hp
      rw [show it + (rest.length + 1) = it + 1 + rest.length by omega, ih (it + 1)]
      exact ⟨fun h => ⟨hp, h⟩, fun h => h.2⟩

theorem Find_le_end (t : FieldTable) (key : Str) : t.Find key ≤ t.end_ := by
  have := Find.loop_le key t.entries 0
  simpa [Find, end_, begin_] using this

theorem Find_eq_end_iff (t : FieldTable) (key : Str) :
    t.Find key = t.end_ ↔ ∀ e ∈ t.entries, e.1 ≠ key := by
  have := Find.loop_eq_end_iff key t.entries 0
  simpa [Find, end_, begin_] using this

theorem Find_split (t : FieldTable) (key : Str) (h : t.Find key ≠ t.end_) :
    ∃ a value b, t.entries = a ++ (key, value) :: b ∧ (∀ e ∈ a, e.1 ≠ key) ∧
      t.Find key = a.length := by
  have hle := Find_le_end t key
  have hlt : Find.loop key t.entries 0 < 0 + t.entries.length := by
    have : t.Find key < t.end_ := lt_of_le_of_ne hle h
    simpa [Find, end_, begin_] using this
  obtain ⟨a, value, b, hl, ha, hi⟩ := Find.loop_lt_split key t.entries 0 hlt
  exact ⟨a, value, b, hl, ha, by simpa [Find, begin_] using hi⟩

theorem Find_lt_entries (t : FieldTable) (key : Str) (j : Nat) (e : Str × Str)
    (hj : j < t.Find key) (he : t.entries[j]? = some e) : e.1 ≠ key := by
  by_cases hend : t.Find key = t.end_
  · exact (Find_eq_end_iff t key).mp hend e (List.getElem?_mem he)
  · obtain ⟨a, value, b, hl, ha, hi⟩ := Find_split t key hend
    rw [hi] at hj
    rw [hl, List.getElem?_append_left hj] at he
    exact ha e (List.getElem?_mem he)

theorem Remove_entries_of_split (t : FieldTable) (key : Str) (h : t.Find key ≠ t.end_) :
    ∃ a value b, t.entries = a ++ (key, value) :: b ∧ (∀ e ∈ a, e.1 ≠ key) ∧
      (t.Remove key).entries = a ++ b := by
  obtain ⟨a, value, b, hl, ha, hi⟩ := Find_split t key h
  refine ⟨a, value, b, hl, ha, ?_⟩
  have h2 : a.length ≠ t.end_ := hi ▸ h
  simp only [Remove, hi, if_pos h2, hl]
  rw [List.eraseIdx_append_of_length_le (le_refl _)]
  simp

theorem Remove_of_forall_ne (t : FieldTable) (key : Str)
    (h : ∀ e ∈ t.entries, e.1 ≠ key) : t.Remove key = t := by
  have hend : t.Find key = t.end_ := (Find_eq_end_iff t key).mpr h
  simp [Remove, hend]

theorem ne_of_eqIgnoreCase_false (a b : Str) (h : eqIgnoreCase a b = false) : a ≠ b := by
  intro hab
  subst hab
  simp [eqIgnoreCase] at h

/-- Reading "matching" case-insensitively gives a stronger hypothesis, so `Remove` is a
no-op under it as well. -/
theorem Remove_of_forall_eqIgnoreCase_false (t : FieldTable) (key : Str)
    (h : ∀ e ∈ t.entries, eqIgnoreCase e.1 key = false) : t.Remove key = t :=
  Remove_of_forall_ne t key (fun e he => ne_of_eqIgnoreCase_false e.1 key (h e he))

/-! ### Claims on the header table -/

/-- C5, as stated, fails: in the table obtained by `Add("Host", "violet")` an entry
matches the name `host` when letter case is ignored, yet `Find("host")` returns the end
iterator. -/
theorem Find_ignores_no_case :
    (∃ e ∈ (Add {} "Host".toList "violet".toList).entries,
        eqIgnoreCase e.1 "host".toList = true) ∧
      (Add {} "Host".toList "violet".toList).Find "host".toList
        = (Add {} "Host".toList "violet".toList).end_ := by
  decide

/-- C5, amended: `Find` returns the first entry, in insertion order, whose name is equal
to the given name byte for byte (no entry before the returned position has that name,
and the entry at that position has it), and it returns the end iterator exactly when no
entry has exactly that name; in particular a lookup of the very name given to `Add`
finds an entry. -/
theorem Find_first_exact_match (t : FieldTable) (key : Str) :
    t.Find key ≤ t.end_ ∧
      (∀ j e, j < t.Find key → t.entries[j]? = some e → e.1 ≠ key) ∧
      (t.Find key ≠ t.end_ → ∃ value, t.entries[t.Find key]? = some (key, value)) ∧
      (t.Find key = t.end_ ↔ ∀ e ∈ t.entries, e.1 ≠ key) ∧
      (∀ value, (t.Add key value).Find key ≠ (t.Add key value).end_) := by
  refine ⟨Find_le_end t key, fun j e hj he => Find_lt_entries t key j e hj he, ?_,
    Find_eq_end_iff t key, ?_⟩
  · intro h
    obtain ⟨a, value, b, hl, _, hi⟩ := Find_split t key h
    exact ⟨value, by rw [hi, hl, List.getElem?_append_right (le_refl _)]; simp⟩
  · intro value h
    have := (Find_eq_end_iff (t.Add key value) key).mp h (key, value) (by simp [Add])
    exact this rfl

/-- C6: `Add` is total and appends: the entry count grows by exactly one, every old
position keeps its entry, and the new pair sits at the last position, whatever names the
table already holds. -/
theorem Add_appends_last (t : FieldTable) (key value : Str) :
    (t.Add key value).end_ = t.end_ + 1 ∧
      (∀ i, i < t.end_ → (t.Add key value).entries[i]? = t.entries[i]?) ∧
      (t.Add key value).entries[t.end_]? = some (key, value) ∧
      (t.Add key value).entries.take t.end_ = t.entries ∧
      (t.Add key value).entries.getLast? = some (key, value) := by
  refine ⟨by simp [Add, end_], ?_, by simp [Add, end_], by simp [Add, end_],
    by simp [Add]⟩
  intro i hi
  simp only [Add, end_] at hi ⊢
  exact List.getElem?_append_left hi

/-- C7, as stated, fails: the table `[("Host", "violet")]` holds an entry matching `host`
case-insensitively, and `Remove("host")` deletes nothing. -/
theorem Remove_ignores_no_case :
    (∃ e ∈ (Add {} "Host".toList "violet".toList).entries,
        eqIgnoreCase e.1 "host".toList = true) ∧
      (Add {} "Host".toList "violet".toList).Remove "host".toList
        = Add {} "Host".toList "violet".toList := by
  decide

/-- C7, amended: when the table holds an entry whose name is exactly the given name,
`Remove` deletes exactly one entry, the first such one: the entries split as
`a ++ (key, value) :: b` with no entry of `a` named `key`, and what is left is `a ++ b`
(so later entries of the same name stay, and the order is kept). -/
theorem Remove_first_exact_match (t : FieldTable) (key : Str)
    (h : ∃ e ∈ t.entries, e.1 = key) :
    ∃ a value b, t.entries = a ++ (key, value) :: b ∧ (∀ e ∈ a, e.1 ≠ key) ∧
      (t.Remove key).entries = a ++ b := by
  apply Remove_entries_of_split
  intro hend
  obtain ⟨e, he, hk⟩ := h
  exact (Find_eq_end_iff t key).mp hend e he hk

/-- C7, amended, at the table `[("Host", "a"), ("X", "b"), ("Host", "c")]`. -/
theorem Remove_first_exact_match_witness :
    (∃ e ∈ ([("Host".toList, "a".toList), ("X".toList, "b".toList),
        ("Host".toList, "c".toList)] : List (Str × Str)), e.1 = "Host".toList) ∧
      ∃ a value b,
        (FieldTable.mk [("Host".toList, "a".toList), ("X".toList, "b".toList),
          ("Host".toList, "c".toList)]).entries = a ++ ("Host".toList, value) :: b ∧
        (∀ e ∈ a, e.1 ≠ "Host".toList) ∧
        ((FieldTable.mk [("Host".toList, "a".toList), ("X".toList, "b".toList),
          ("Host".toList, "c".toList)]).Remove "Host".toList).entries = a ++ b :=
  ⟨by decide, Remove_first_exact_match _ _ (by decide)⟩

/-- C8: when no entry of the table has the given name, `Remove` leaves the table as it
was. (No entry matching case-insensitively is a special case of this hypothesis.) -/
theorem Remove_absent_noop (t : FieldTable) (key : Str)
    (h : ∀ e ∈ t.entries, e.1 ≠ key) : t.Remove key = t :=
  Remove_of_forall_ne t key h

/-- C8 at the table `[("Host", "a"), ("X", "b")]` and the name `Accept`. -/
theorem Remove_absent_noop_witness :
    (∀ e ∈ (FieldTable.mk [("Host".toList, "a".toList), ("X".toList, "b".toList)]).entries,
        e.1 ≠ "Accept".toList) ∧
      (FieldTable.mk [("Host".toList, "a".toList), ("X".toList, "b".toList)]).Remove
        "Accept".toList
        = FieldTable.mk [("Host".toList, "a".toList), ("X".toList, "b".toList)] :=
  ⟨by decide, Remove_absent_noop _ _ (by decide)⟩

/-- C9: `HasField` is true exactly when `Find` does not return the end iterator, which
is exactly when some entry of the table has the given name (as `Find` compares names). -/
theorem HasField_iff_Find (t : FieldTable) (key : Str) :
    (t.HasField key = true ↔ t.Find key ≠ t.end_) ∧
      (t.HasField key = true ↔ ∃ e ∈ t.entries, e.1 = key) := by
  have h1 : t.HasField key = true ↔ t.Find key ≠ t.end_ := by simp [HasField]
  refine ⟨h1, ?_⟩
  rw [h1, Ne, Find_eq_end_iff]
  push_neg
  rfl

end FieldTable

/-! ## Properties of `HttpRequest::ToString` -/

namespace HttpRequest

theorem foldl_append_map {α : Type} (g : α → Str) (l : List α) (stream : Str) :
    l.foldl (fun stream x => stream ++ g x) stream = stream ++ (l.map g).flatten := by
  induction l generalizing stream with
  | nil => simp
  | cons x rest ih => simp [ih]

theorem foldl_headers (l : List (Str × Str)) (stream : Str) :
    l.foldl (fun stream field => stream ++ field.1 ++ [':', ' '] ++ field.2 ++ ['\r', '\n'])
        stream
      = stream ++ (l.map headerLine).flatten := by
  have hfun : (fun (stream : Str) (field : Str × Str) =>
      stream ++ field.1 ++ [':', ' '] ++ field.2 ++ ['\r', '\n'])
      = fun stream field => stream ++ headerLine field := by
    funext stream field
    simp [headerLine]
  rw [hfun, foldl_append_map]

theorem methodToken_Get : methodToken Get = some ['G', 'E', 'T'] := by decide

theorem methodToken_eq_some (m : Int) (token : Str) (h : methodToken m = some token) :
    m = Get ∧ token = ['G', 'E', 'T'] := by
  unfold methodToken at h
  split at h
  · rename_i hm
    have hlt : m.toNat < 1 := by
      by_contra hge
      have : s_MethodsTable[m.toNat]? = none := by
        apply List.getElem?_eq_none
        simp only [s_MethodsTable, List.length_singleton]
        omega
      rw [this] at h
      exact Option.noConfusion h
    have h0 : m.toNat = 0 := by omega
    rw [h0] at h
    simp only [s_MethodsTable, List.getElem?_cons_zero, Option.some.injEq] at h
    refine ⟨?_, h.symm⟩
    unfold Get
    omega
  · exact Option.noConfusion h

/-- The serialized form of a request with the method `Get`, in closed form. -/
theorem ToString_Get (r : HttpRequest) (h : r.Method = Get) :
    r.ToString = some (['G', 'E', 'T', ' '] ++ r.URI ++ [' ', 'H', 'T', 'T', 'P', '/']
      ++ showInt r.MajorVersion ++ ['.'] ++ showInt r.MinorVersion ++ ['\r', '\n']
      ++ (r.Fields.entries.map headerLine).flatten ++ ['\r', '\n'] ++ r.Body) := by
  simp only [ToString, h, methodToken_Get, Option.bind_eq_bind, Option.some_bind,
    Option.pure_def, foldl_headers]
  simp

/-- C2, as stated, fails: a request with the three-byte body `abc` and an empty table
serializes to `GET / HTTP/1.1` CR LF CR LF `abc`, which contains no `Content-Length`
at all; and when the caller supplies the value `7` for the same body, the line written
carries `7`, not `3`. -/
theorem ToString_derives_no_content_length :
    (∃ out, ToString { Body := "abc".toList } = some out ∧
        out = "GET / HTTP/1.1\r\n\r\nabc".toList ∧
        ¬ "Content-Length".toList <:+: out) ∧
      (∃ out,
        ToString { Body := "abc".toList, Fields := ⟨[("Content-Length".toList, "7".toList)]⟩ }
          = some out ∧
        "Content-Length: 7\r\n".toList <:+: out ∧
        ¬ "Content-Length: 3\r\n".toList <:+: out) := by
  refine ⟨⟨_, rfl, by decide, by decide⟩, ⟨_, rfl, by decide, by decide⟩⟩

end HttpRequest

/-! ## Properties of `HttpClient::SendRequest` -/

namespace HttpClient

theorem SendRequest.loop_done (pieces : List Str) (received : Str) :
    SendRequest.loop (pieces.map (fun piece => (Socket.Status.Done, piece))) received
      = (received ++ pieces.flatten, []) := by
  induction pieces generalizing received with
  | nil => simp [SendRequest.loop]
  | cons piece rest ih => simp [SendRequest.loop, ih]

/-- What `SendRequest` returns when the send and every listed receive report `Done`. -/
theorem SendRequest_delivering (request : HttpRequest) (pieces : List Str)
    (hm : request.Method = HttpRequest.Get) :
    ∃ client, SendRequest { Socket := TcpSocket.delivering pieces } request
      = some (pieces.flatten, client) := by
  simp [SendRequest, HttpRequest.ToString_Get request hm, TcpSocket.send,
    TcpSocket.delivering, SendRequest.loop_done]

/-- C3: for every byte sequence (well-formed or not) and every way of cutting it into
pieces (whatever their number and sizes), the exchange in which the pieces arrive one per `receive` returns the same
string as the exchange in which the sequence arrives in one piece, namely the sequence
itself, so `Parse` gives the same response value for both. -/
theorem Parse_fragmentation_invariant (request : HttpRequest) (pieces : List Str)
    (whole : Str) (status : Int) (hm : request.Method = HttpRequest.Get)
    (hsplit : pieces.flatten = whole) :
    ∃ split single,
      SendRequest { Socket := TcpSocket.delivering pieces } request = some split ∧
      SendRequest { Socket := TcpSocket.delivering [whole] } request = some single ∧
      split.1 = whole ∧ single.1 = whole ∧
      HttpResponce.Parse split.1 status = HttpResponce.Parse single.1 status := by
  obtain ⟨c1, h1⟩ := SendRequest_delivering request pieces hm
  obtain ⟨c2, h2⟩ := SendRequest_delivering request [whole] hm
  refine ⟨_, _, h1, h2, hsplit, by simp, ?_⟩
  simp [hsplit]

/-- C3 for the response `HTTP/1.1 200 OK` CR LF CR LF cut into three pieces. -/
theorem Parse_fragmentation_invariant_witness :
    ∃ split single,
      SendRequest
          (HttpClient.mk (TcpSocket.delivering
            ["HTTP/1".toList, ".1 20".toList, "0 OK\r\n\r\n".toList]))
          mainRequest = some split ∧
      SendRequest { Socket := TcpSocket.delivering ["HTTP/1.1 200 OK\r\n\r\n".toList] }
          mainRequest = some single ∧
      split.1 = "HTTP/1.1 200 OK\r\n\r\n".toList ∧
      single.1 = "HTTP/1.1 200 OK\r\n\r\n".toList ∧
      HttpResponce.Parse split.1 0 = HttpResponce.Parse single.1 0 :=
  Parse_fragmentation_invariant mainRequest
    ["HTTP/1".toList, ".1 20".toList, "0 OK\r\n\r\n".toList]
    "HTTP/1.1 200 OK\r\n\r\n".toList 0 (by decide) (by decide)

end HttpClient

/-! ## Decimal numerals: written by `to_string`, read back by `%d` -/

theorem digitChar_toNat (k : Nat) (h : k < 10) : (Nat.digitChar k).toNat = k + 48 := by
  interval_cases k <;> rfl

theorem digitsValue_append_singleton (l : Str) (d : Char) :
    digitsValue (l ++ [d]) = 10 * digitsValue l + (d.toNat - 48) := by
  simp [digitsValue, List.foldl_append]

theorem toDigitsCore_spec (fuel : Nat) : ∀ (n : Nat) (ds : Str), n < fuel →
    ∃ l, Nat.toDigitsCore 10 fuel n ds = l ++ ds ∧ l ≠ [] ∧
      (∀ c ∈ l, isdigit c = true) ∧ digitsValue l = n := by
  induction fuel with
  | zero => intro n ds h; omega
  | succ fuel ih =>
    intro n ds h
    have hd : (Nat.digitChar (n % 10)).toNat = n % 10 + 48 :=
      digitChar_toNat (n % 10) (Nat.mod_lt n (by decide))
    have hdig : isdigit (Nat.digitChar (n % 10)) = true := by
      simp only [isdigit, hd, decide_eq_true_eq]
      have := Nat.mod_lt n (show 0 < 10 by decide)
      omega
    simp only [Nat.toDigitsCore]
    split
    · rename_i h0
      refine ⟨[Nat.digitChar (n % 10)], by simp, by simp, ?_, ?_⟩
      · intro c hc
        rw [List.mem_singleton.mp hc]
        exact hdig
      · simp only [digitsValue, List.foldl_cons, List.foldl_nil, hd]
        omega
    · rename_i h0
      have hlt : n / 10 < fuel := by omega
      obtain ⟨l, hl, _, hall, hval⟩ := ih (n / 10) (Nat.digitChar (n % 10) :: ds) hlt
      refine ⟨l ++ [Nat.digitChar (n % 10)], by simp [hl], by simp, ?_, ?_⟩
      · intro c hc
        rcases List.mem_append.mp hc with hc | hc
        · exact hall c hc
        · rw [List.mem_singleton.mp hc]
          exact hdig
      · rw [digitsValue_append_singleton, hval, hd]
        omega

theorem to_string_spec (n : Nat) :
    to_string n ≠ [] ∧ (∀ c ∈ to_string n, isdigit c = true) ∧
      digitsValue (to_string n) = n := by
  obtain ⟨l, hl, hne, hall, hval⟩ := toDigitsCore_spec (n + 1) n [] (Nat.lt_succ_self n)
  have : to_string n = l := by simpa [to_string, Nat.toDigits] using hl
  rw [this]
  exact ⟨hne, hall, hval⟩

theorem to_string_injective (m n : Nat) (h : to_string m = to_string n) : m = n := by
  rw [← (to_string_spec m).2.2, ← (to_string_spec n).2.2, h]

theorem isdigit_not_isspace (c : Char) (h : isdigit c = true) : isspace c = false := by
  simp only [isdigit, decide_eq_true_eq] at h
  simp only [isspace, Bool.or_eq_false_iff, decide_eq_false_iff_not]
  refine ⟨⟨⟨⟨⟨?_, ?_⟩, ?_⟩, ?_⟩, ?_⟩, ?_⟩ <;> (intro hc; subst hc; revert h; decide)

/-- The conversion `%d` on a run of digits followed by something that is no digit. -/
theorem scanInt_digits (l rest : Str) (hne : l ≠ []) (hall : ∀ c ∈ l, isdigit c = true)
    (hrest : ∀ c ∈ rest.head?, isdigit c = false) :
    scanInt (l ++ rest) = some (toLong (digitsValue l), rest) := by
  cases l with
  | nil => exact absurd rfl hne
  | cons c l =>
    have hc : isdigit c = true := hall c (List.mem_cons_self c l)
    have hsp : isspace c = false := isdigit_not_isspace c hc
    have hminus : c ≠ '-' := by intro h; subst h; revert hc; decide
    have hplus : c ≠ '+' := by intro h; subst h; revert hc; decide
    have htake : ((c :: l) ++ rest).takeWhile isdigit = c :: l := by
      rw [List.takeWhile_append_of_pos hall]
      cases rest with
      | nil => simp
      | cons d rest =>
        have : isdigit d = false := hrest d (by simp)
        simp [this]
    have hdrop : ((c :: l) ++ rest).dropWhile isdigit = rest := by
      rw [List.dropWhile_append_of_pos hall]
      cases rest with
      | nil => simp
      | cons d rest =>
        have : isdigit d = false := hrest d (by simp)
        simp [this]
    have hskip : ((c :: l) ++ rest).dropWhile isspace = (c :: l) ++ rest := by
      simp [hsp]
    unfold scanInt
    simp only [hskip]
    have hsigned : (match (c :: l) ++ rest with
        | '-' :: rest => (true, rest)
        | '+' :: rest => (false, rest)
        | _ => (false, (c :: l) ++ rest)) = (false, (c :: l) ++ rest) := by
      split
      · rename_i heq
        simp only [List.cons_append, List.cons.injEq] at heq
        exact absurd heq.1 hminus
      · rename_i heq
        simp only [List.cons_append, List.cons.injEq] at heq
        exact absurd heq.1 hplus
      · rfl
    simp only [hsigned, htake, hdrop]
    simp

/-! ## Properties of `HttpResponce::Parse` -/

theorem isdigit_ne_nul (c : Char) (h : isdigit c = true) : c ≠ Char.ofNat 0 := by
  intro hc
  subst hc
  revert h
  decide

theorem c_str_append_of_no_nul (l rest : Str) (h : ∀ c ∈ l, c ≠ Char.ofNat 0) :
    c_str (l ++ rest) = l ++ c_str rest := by
  unfold c_str
  rw [List.takeWhile_append_of_pos]
  intro c hc
  simpa using h c hc

/-- The scan of `"HTTP/%d.%d %d\r\n"` over a status line made of three runs of digits:
all three conversions succeed, whatever follows the space after the third run. -/
theorem sscanf_statusFormat (mj mn st tail : Str)
    (hmj : mj ≠ [] ∧ ∀ c ∈ mj, isdigit c = true)
    (hmn : mn ≠ [] ∧ ∀ c ∈ mn, isdigit c = true)
    (hst : st ≠ [] ∧ ∀ c ∈ st, isdigit c = true) :
    sscanf statusFormat
        (['H', 'T', 'T', 'P', '/'] ++ (mj ++ ('.' :: (mn ++ (' ' :: (st ++ (' ' :: tail)))))))
      = [toLong (digitsValue mj), toLong (digitsValue mn), toLong (digitsValue st)] := by
  have h1 := scanInt_digits mj ('.' :: (mn ++ (' ' :: (st ++ (' ' :: tail))))) hmj.1 hmj.2
    (by intro c hc; simp only [List.head?_cons, Option.mem_def, Option.some.injEq] at hc
        subst hc; decide)
  have h2 := scanInt_digits mn (' ' :: (st ++ (' ' :: tail))) hmn.1 hmn.2
    (by intro c hc; simp only [List.head?_cons, Option.mem_def, Option.some.injEq] at hc
        subst hc; decide)
  have h3 := scanInt_digits st (' ' :: tail) hst.1 hst.2
    (by intro c hc; simp only [List.head?_cons, Option.mem_def, Option.some.injEq] at hc
        subst hc; decide)
  have hskip : (' ' :: (st ++ (' ' :: tail))).dropWhile isspace = st ++ (' ' :: tail) := by
    obtain ⟨hne, hall⟩ := hst
    cases st with
    | nil => exact absurd rfl hne
    | cons c st =>
      have hsp := isdigit_not_isspace c (hall c (List.mem_cons_self c st))
      have hspace : isspace ' ' = true := by decide
      simp [hspace, hsp]
  simp [statusFormat, sscanf, h1, h2, h3, hskip]

theorem toLong_of_lt (n : Nat) (h : n < 2 ^ 31) : toLong (n : Int) = n := by
  unfold toLong LONG_MIN LONG_MAX
  have h1 : min (n : Int) (2 ^ 63 - 1) = n := by
    apply min_eq_left
    omega
  rw [h1]
  apply max_eq_right
  omega

theorem toUInt32_of_lt (n : Nat) (h : n < 2 ^ 31) : toUInt32 (n : Int) = n := by
  unfold toUInt32
  have h2 : (n : Int) % 2 ^ 32 = n := by
    apply Int.emod_eq_of_lt <;> omega
  rw [h2]
  simp

theorem toInt32_of_lt (n : Nat) (h : n < 2 ^ 31) : toInt32 (n : Int) = n := by
  unfold toInt32
  have h2 : ((n : Int) + 2 ^ 31) % 2 ^ 32 = n + 2 ^ 31 := by
    apply Int.emod_eq_of_lt <;> omega
  rw [h2]
  omega

namespace HttpResponce

/-- What `Parse` returns on an input that starts with `HTTP/`, digits, `.`, digits, a
space, digits and a space: the three numbers as stored, whatever follows and whatever the
uninitialised local held. -/
theorem Parse_of_status_prefix (mj mn st tail : Str) (status : Int)
    (hmj : mj ≠ [] ∧ ∀ c ∈ mj, isdigit c = true)
    (hmn : mn ≠ [] ∧ ∀ c ∈ mn, isdigit c = true)
    (hst : st ≠ [] ∧ ∀ c ∈ st, isdigit c = true) :
    Parse (['H', 'T', 'T', 'P', '/'] ++ (mj ++ ('.' :: (mn ++ (' ' :: (st ++ (' ' :: tail)))))))
        status
      = { Fields := { entries := [] }, Status := toInt32 (toLong (digitsValue st)),
          MajorVersion := toUInt32 (toLong (digitsValue mj)),
          MinorVersion := toUInt32 (toLong (digitsValue mn)), Body := [] } := by
  have hinput : ['H', 'T', 'T', 'P', '/'] ++ (mj ++ ('.' :: (mn ++ (' ' :: (st ++ (' ' :: tail))))))
      = (['H', 'T', 'T', 'P', '/'] ++ (mj ++ ('.' :: (mn ++ (' ' :: (st ++ [' ']))))))
        ++ tail := by
    simp
  have hnul : ∀ c ∈ ['H', 'T', 'T', 'P', '/'] ++ (mj ++ ('.' :: (mn ++ (' ' :: (st ++ [' '])))))
      , c ≠ Char.ofNat 0 := by
    intro c hc
    simp only [List.mem_append, List.mem_cons, List.mem_singleton, List.not_mem_nil,
      or_false] at hc
    rcases hc with hc | hc | hc | hc | hc | hc | hc
    · rcases hc with hc | hc | hc | hc | hc <;> (subst hc; decide)
    · exact isdigit_ne_nul c (hmj.2 c hc)
    · subst hc; decide
    · exact isdigit_ne_nul c (hmn.2 c hc)
    · subst hc; decide
    · exact isdigit_ne_nul c (hst.2 c hc)
    · subst hc; decide
  have hscan : sscanf statusFormat (c_str (['H', 'T', 'T', 'P', '/'] ++ (mj ++ ('.' :: (mn
      ++ (' ' :: (st ++ (' ' :: tail)))))))) = [toLong (digitsValue mj), toLong (digitsValue mn),
        toLong (digitsValue st)] := by
    rw [hinput, c_str_append_of_no_nul _ _ hnul]
    rw [← sscanf_statusFormat mj mn st (c_str tail) hmj hmn hst]
    simp
  simp only [Parse, hscan]

/-- C4, as stated, fails: two inputs of the stated form that differ only in the reason
phrase (`OK` and `Gone`) give the same response value, so nothing read off the returned
response can be "that reason phrase" for both; and a major version beyond 32 bits is
not the one returned. -/
theorem Parse_keeps_no_reason :
    Parse "HTTP/1.1 200 OK\r\n\r\n".toList 0 = Parse "HTTP/1.1 200 Gone\r\n\r\n".toList 0 ∧
      (¬ ∃ reason : HttpResponce → Str,
        reason (Parse "HTTP/1.1 200 OK\r\n\r\n".toList 0) = "OK".toList ∧
        reason (Parse "HTTP/1.1 200 Gone\r\n\r\n".toList 0) = "Gone".toList) ∧
      (Parse "HTTP/4294967297.1 200 OK\r\n\r\n".toList 0).MajorVersion ≠ 4294967297 := by
  have heq : Parse "HTTP/1.1 200 OK\r\n\r\n".toList 0
      = Parse "HTTP/1.1 200 Gone\r\n\r\n".toList 0 := by decide
  refine ⟨heq, ?_, by decide⟩
  rintro ⟨reason, h1, h2⟩
  rw [heq, h2] at h1
  revert h1
  decide

/-- C4, amended: for every input `HTTP/<major>.<minor> <status> <reason>` CR LF CR LF
whose three numbers are decimal numerals of values below `2 ^ 31`, `Parse` returns the
response with that major version, that minor version and that status code, an empty
header table and an empty body, whatever value the uninitialised local held; the reason
phrase is not part of the response. -/
theorem Parse_status_line (major minor code : Nat) (reason : Str) (status : Int)
    (hmajor : major < 2 ^ 31) (hminor : minor < 2 ^ 31) (hcode : code < 2 ^ 31) :
    Parse ("HTTP/".toList ++ to_string major ++ ".".toList ++ to_string minor ++ " ".toList
        ++ to_string code ++ " ".toList ++ reason ++ "\r\n\r\n".toList) status
      = { Fields := { entries := [] }, Status := code, MajorVersion := major,
          MinorVersion := minor, Body := [] } := by
  obtain ⟨hj1, hj2, hj3⟩ := to_string_spec major
  obtain ⟨hn1, hn2, hn3⟩ := to_string_spec minor
  obtain ⟨hs1, hs2, hs3⟩ := to_string_spec code
  have hinput : "HTTP/".toList ++ to_string major ++ ".".toList ++ to_string minor
      ++ " ".toList ++ to_string code ++ " ".toList ++ reason ++ "\r\n\r\n".toList
      = ['H', 'T', 'T', 'P', '/'] ++ (to_string major ++ ('.' :: (to_string minor
          ++ (' ' :: (to_string code ++ (' ' :: (reason ++ ['\r', '\n', '\r', '\n']))))))) := by
    simp
  rw [hinput, Parse_of_status_prefix _ _ _ _ status ⟨hj1, hj2⟩ ⟨hn1, hn2⟩ ⟨hs1, hs2⟩,
    hj3, hn3, hs3, toLong_of_lt major hmajor, toLong_of_lt minor hminor,
    toLong_of_lt code hcode, toUInt32_of_lt major hmajor, toUInt32_of_lt minor hminor,
    toInt32_of_lt code hcode]

/-- C4, amended, at `HTTP/1.1 200 OK` CR LF CR LF: version 1.1, status 200, no headers. -/
theorem Parse_status_line_witness :
    ("HTTP/".toList ++ to_string 1 ++ ".".toList ++ to_string 1 ++ " ".toList
        ++ to_string 200 ++ " ".toList ++ "OK".toList ++ "\r\n\r\n".toList
      = "HTTP/1.1 200 OK\r\n\r\n".toList) ∧
    Parse ("HTTP/".toList ++ to_string 1 ++ ".".toList ++ to_string 1 ++ " ".toList
        ++ to_string 200 ++ " ".toList ++ "OK".toList ++ "\r\n\r\n".toList) 0
      = { Fields := { entries := [] }, Status := 200, MajorVersion := 1,
          MinorVersion := 1, Body := [] } :=
  ⟨by decide, Parse_status_line 1 1 200 "OK".toList 0 (by decide) (by decide) (by decide)⟩

end HttpResponce

/-! ## `ToString` determines the request -/

/-- Two splits of one list at the first occurrence of `c` are the same split. -/
theorem split_first_unique {α : Type} (c : α) : ∀ (x x' y y' : List α),
    c ∉ x → c ∉ x' → x ++ c :: y = x' ++ c :: y' → x = x' ∧ y = y' := by
  intro x
  induction x with
  | nil =>
    intro x' y y' _ hx' h
    cases x' with
    | nil => simpa using h
    | cons a t =>
      simp only [List.nil_append, List.cons_append, List.cons.injEq] at h
      exact absurd (h.1 ▸ List.mem_cons_self a t) hx'
  | cons a t ih =>
    intro x' y y' hx hx' h
    cases x' with
    | nil =>
      simp only [List.nil_append, List.cons_append, List.cons.injEq] at h
      exact absurd (h.1 ▸ List.mem_cons_self a t) hx
    | cons a' t' =>
      simp only [List.cons_append, List.cons.injEq] at h
      obtain ⟨h1, h2⟩ := ih t' y y' (fun hm => hx (List.mem_cons_of_mem a hm))
        (fun hm => hx' (List.mem_cons_of_mem a' hm)) h.2
      exact ⟨by rw [h.1, h1], h2⟩

/-- Two splits of one list at the last occurrence of `c` are the same split. -/
theorem split_last_unique {α : Type} (c : α) (x x' y y' : List α)
    (hy : c ∉ y) (hy' : c ∉ y') (h : x ++ c :: y = x' ++ c :: y') : x = x' ∧ y = y' := by
  have hrev : y.reverse ++ c :: x.reverse = y'.reverse ++ c :: x'.reverse := by
    have := congrArg List.reverse h
    simpa using this
  obtain ⟨h1, h2⟩ := split_first_unique c y.reverse y'.reverse x.reverse x'.reverse
    (by simpa using hy) (by simpa using hy') hrev
  exact ⟨List.reverse_injective h2, List.reverse_injective h1⟩

theorem showInt_chars (i : Int) (c : Char) (hc : c ∈ showInt i) :
    isdigit c = true ∨ c = '-' := by
  cases i with
  | ofNat n => exact Or.inl ((to_string_spec n).2.1 c hc)
  | negSucc n =>
    simp only [showInt, List.mem_cons] at hc
    rcases hc with hc | hc
    · exact Or.inr hc
    · exact Or.inl ((to_string_spec (n + 1)).2.1 c hc)

theorem showInt_injective (i j : Int) (h : showInt i = showInt j) : i = j := by
  have hhead : ∀ n : Nat, ∀ l : Str, to_string n ≠ '-' :: l := by
    intro n l hl
    have := (to_string_spec n).2.1 '-' (by rw [hl]; exact List.mem_cons_self _ _)
    revert this
    decide
  cases i with
  | ofNat m =>
    cases j with
    | ofNat n =>
      simp only [showInt] at h
      rw [to_string_injective m n h]
    | negSucc n =>
      simp only [showInt] at h
      exact absurd h (hhead m _)
  | negSucc m =>
    cases j with
    | ofNat n =>
      simp only [showInt] at h
      exact absurd h.symm (hhead n _)
    | negSucc n =>
      simp only [showInt, List.cons.injEq, true_and] at h
      have := to_string_injective (m + 1) (n + 1) h
      have hmn : m = n := by omega
      rw [hmn]

theorem showInt_not_mem (i : Int) (c : Char) (hd : isdigit c = false) (hm : c ≠ '-') :
    c ∉ showInt i := by
  intro hc
  rcases showInt_chars i c hc with h | h
  · rw [hd] at h
    exact Bool.noConfusion h
  · exact hm h

namespace HttpRequest

theorem headers_unique : ∀ (l1 l2 : List (Str × Str)) (b1 b2 : Str),
    (∀ field ∈ l1, '\r' ∉ field.1 ∧ ':' ∉ field.1 ∧ '\r' ∉ field.2) →
    (∀ field ∈ l2, '\r' ∉ field.1 ∧ ':' ∉ field.1 ∧ '\r' ∉ field.2) →
    (l1.map headerLine).flatten ++ '\r' :: '\n' :: b1
      = (l2.map headerLine).flatten ++ '\r' :: '\n' :: b2 →
    l1 = l2 ∧ b1 = b2 := by
  have hstart : ∀ (f : Str × Str) (rest b : Str), '\r' ∉ f.1 →
      '\r' :: '\n' :: b ≠ headerLine f ++ rest := by
    intro f rest b hf h
    rcases f with ⟨name, value⟩
    cases name with
    | nil =>
      simp only [headerLine, List.nil_append, List.cons_append, List.cons.injEq] at h
      exact absurd h.1 (by decide)
    | cons a t =>
      simp only [headerLine, List.cons_append, List.cons.injEq] at h
      exact hf (h.1 ▸ List.mem_cons_self a t)
  intro l1
  induction l1 with
  | nil =>
    intro l2 b1 b2 _ h2 h
    cases l2 with
    | nil => simpa using h
    | cons f rest =>
      simp only [List.map_nil, List.flatten_nil, List.nil_append, List.map_cons,
        List.flatten_cons, List.append_assoc] at h
      exact absurd h (hstart f _ b1 (h2 f (List.mem_cons_self f rest)).1)
  | cons f1 rest1 ih =>
    intro l2 b1 b2 h1 h2 h
    cases l2 with
    | nil =>
      simp only [List.map_nil, List.flatten_nil, List.nil_append, List.map_cons,
        List.flatten_cons, List.append_assoc] at h
      exact absurd h.symm (hstart f1 _ b2 (h1 f1 (List.mem_cons_self f1 rest1)).1)
    | cons f2 rest2 =>
      obtain ⟨hn1, hc1, hv1⟩ := h1 f1 (List.mem_cons_self f1 rest1)
      obtain ⟨hn2, hc2, hv2⟩ := h2 f2 (List.mem_cons_self f2 rest2)
      simp only [List.map_cons, List.flatten_cons, headerLine, List.append_assoc,
        List.cons_append, List.nil_append] at h
      obtain ⟨hname, h⟩ := split_first_unique ':' _ _ _ _ hc1 hc2 h
      simp only [List.cons.injEq, true_and] at h
      obtain ⟨hvalue, h⟩ := split_first_unique '\r' _ _ _ _ hv1 hv2 h
      simp only [List.cons.injEq, true_and] at h
      obtain ⟨hrest, hb⟩ := ih rest2 b1 b2
        (fun field hf => h1 field (List.mem_cons_of_mem f1 hf))
        (fun field hf => h2 field (List.mem_cons_of_mem f2 hf)) h
      exact ⟨by rw [Prod.ext hname hvalue, hrest], hb⟩

/-- Among the delimited requests, the serialized bytes determine the whole request. -/
theorem eq_of_ToString_eq (r1 r2 : HttpRequest) (out : Str)
    (h1 : r1.ToString = some out) (h2 : r2.ToString = some out)
    (d1 : r1.Delimited) (d2 : r2.Delimited) : r1 = r2 := by
  have hm : ∀ (r : HttpRequest) (s : Str), r.ToString = some s → r.Method = Get := by
    intro r s hr
    cases hmt : methodToken r.Method with
    | none => simp [ToString, hmt] at hr
    | some token => exact (methodToken_eq_some r.Method token hmt).1
  have hm1 := hm r1 out h1
  have hm2 := hm r2 out h2
  rw [ToString_Get r1 hm1] at h1
  rw [ToString_Get r2 hm2, ← h1] at h2
  simp only [List.append_assoc, List.cons_append, List.nil_append, Option.some.injEq,
    List.cons.injEq, true_and] at h2
  have hline : ∀ r : HttpRequest, '\r' ∉ r.URI →
      '\r' ∉ r.URI ++ ' ' :: 'H' :: 'T' :: 'T' :: 'P' :: '/' ::
        (showInt r.MajorVersion ++ '.' :: showInt r.MinorVersion) := by
    intro r hu hmem
    simp only [List.mem_append, List.mem_cons] at hmem
    rcases hmem with h | h | h | h | h | h | h | h | h | h
    · exact hu h
    all_goals first
      | exact absurd h (by decide)
      | exact showInt_not_mem _ '\r' (by decide) (by decide) h
  have hversion : ∀ r : HttpRequest,
      ' ' ∉ 'H' :: 'T' :: 'T' :: 'P' :: '/' ::
        (showInt r.MajorVersion ++ '.' :: showInt r.MinorVersion) := by
    intro r hmem
    simp only [List.mem_append, List.mem_cons] at hmem
    rcases hmem with h | h | h | h | h | h | h | h
    all_goals first
      | exact absurd h (by decide)
      | exact showInt_not_mem _ ' ' (by decide) (by decide) h
  have hsplit : (r2.URI ++ ' ' :: 'H' :: 'T' :: 'T' :: 'P' :: '/' ::
        (showInt r2.MajorVersion ++ '.' :: showInt r2.MinorVersion)) ++ '\r' :: ('\n' ::
          ((r2.Fields.entries.map headerLine).flatten ++ '\r' :: '\n' :: r2.Body))
      = (r1.URI ++ ' ' :: 'H' :: 'T' :: 'T' :: 'P' :: '/' ::
        (showInt r1.MajorVersion ++ '.' :: showInt r1.MinorVersion)) ++ '\r' :: ('\n' ::
          ((r1.Fields.entries.map headerLine).flatten ++ '\r' :: '\n' :: r1.Body)) := by
    simpa using h2
  obtain ⟨hfirst, hrest⟩ := split_first_unique '\r' _ _ _ _ (hline r2 d2.1) (hline r1 d1.1)
    hsplit
  obtain ⟨huri, hver⟩ := split_last_unique ' ' _ _ _ _ (hversion r2) (hversion r1) hfirst
  simp only [List.cons.injEq, true_and] at hver hrest
  obtain ⟨hmajor, hminor⟩ := split_first_unique '.' _ _ _ _
    (showInt_not_mem _ '.' (by decide) (by decide))
    (showInt_not_mem _ '.' (by decide) (by decide)) hver
  obtain ⟨hfields, hbody⟩ := headers_unique _ _ _ _ d2.2 d1.2 hrest
  rcases r1 with ⟨u1, m1, ⟨f1⟩, j1, n1, b1⟩
  rcases r2 with ⟨u2, m2, ⟨f2⟩, j2, n2, b2⟩
  simp only at huri hmajor hminor hfields hbody hm1 hm2
  rw [huri, hm1, hm2, hfields, showInt_injective _ _ hmajor, showInt_injective _ _ hminor,
    hbody]

/-- C10, as stated, fails: requests that differ in their header pairs or URI serialize
to the same bytes when a header name holds a colon (`a: b` with value `c` against `a`
with value `b: c`), when a header value holds CR LF (one entry `X` with value
`1` CR LF `Y: 2` against the two entries `X: 1`, `Y: 2`), when the URI holds CR LF, or
when a header name starts with CR LF. -/
theorem ToString_not_injective :
    (ToString { Fields := ⟨[("a: b".toList, "c".toList)]⟩ }
        = ToString { Fields := ⟨[("a".toList, "b: c".toList)]⟩ } ∧
      ToString { Fields := ⟨[("a: b".toList, "c".toList)]⟩ } ≠ none ∧
      [("a: b".toList, "c".toList)] ≠ [("a".toList, "b: c".toList)]) ∧
    (ToString { Fields := ⟨[("X".toList, "1\r\nY: 2".toList)]⟩ }
        = ToString { Fields := ⟨[("X".toList, "1".toList), ("Y".toList, "2".toList)]⟩ } ∧
      [("X".toList, "1\r\nY: 2".toList)]
        ≠ [("X".toList, "1".toList), ("Y".toList, "2".toList)]) ∧
    (ToString { URI := "/ HTTP/1.1\r\nA: b".toList }
        = ToString { URI := "/".toList, Fields := ⟨[("A".toList, "b HTTP/1.1".toList)]⟩ } ∧
      "/ HTTP/1.1\r\nA: b".toList ≠ "/".toList) ∧
    (ToString { Fields := ⟨[("\r\nX".toList, "y".toList)]⟩ }
        = ToString { Body := "X: y\r\n\r\n".toList } ∧
      [("\r\nX".toList, "y".toList)] ≠ ([] : List (Str × Str))) := by
  decide

/-- C10, amended: among the requests whose URI, header names and header values hold no
CR and whose header names hold no colon, `ToString` determines the request: two such
requests with the same serialized bytes have the same method, URI, major and minor
version and the same sequence of (name, value) pairs, in the same order. -/
theorem ToString_determines_request (r1 r2 : HttpRequest) (out : Str)
    (h1 : r1.ToString = some out) (h2 : r2.ToString = some out)
    (d1 : r1.Delimited) (d2 : r2.Delimited) :
    r1.Method = r2.Method ∧ r1.URI = r2.URI ∧ r1.MajorVersion = r2.MajorVersion ∧
      r1.MinorVersion = r2.MinorVersion ∧ r1.Fields.entries = r2.Fields.entries := by
  have h := eq_of_ToString_eq r1 r2 out h1 h2 d1 d2
  subst h
  exact ⟨rfl, rfl, rfl, rfl, rfl⟩

/-- C10, amended, at the request of `main`, rebuilt field by field, and its bytes. -/
theorem ToString_determines_request_witness :
    mainRequest.Delimited ∧
      mainRequest.ToString = some ("GET /http-basics HTTP/1.1\r\nConnection: keep-alive\r\n"
        ++ "User-Agent: violet\r\nHost: violet\r\nHost: www.steves-internet-guide.com\r\n"
        ++ "Content-Length: 0\r\n\r\n").toList ∧
      (HttpRequest.mk "/http-basics".toList 0
          ⟨[("Connection".toList, "keep-alive".toList), ("User-Agent".toList, "violet".toList),
            ("Host".toList, "violet".toList),
            ("Host".toList, "www.steves-internet-guide.com".toList),
            ("Content-Length".toList, "0".toList)]⟩ 1 1 []).Method = mainRequest.Method ∧
      (HttpRequest.mk "/http-basics".toList 0
          ⟨[("Connection".toList, "keep-alive".toList), ("User-Agent".toList, "violet".toList),
            ("Host".toList, "violet".toList),
            ("Host".toList, "www.steves-internet-guide.com".toList),
            ("Content-Length".toList, "0".toList)]⟩ 1 1 []).Fields.entries
        = mainRequest.Fields.entries :=
  have h := ToString_determines_request
    (HttpRequest.mk "/http-basics".toList 0
      ⟨[("Connection".toList, "keep-alive".toList), ("User-Agent".toList, "violet".toList),
        ("Host".toList, "violet".toList),
        ("Host".toList, "www.steves-internet-guide.com".toList),
        ("Content-Length".toList, "0".toList)]⟩ 1 1 [])
    mainRequest
    ("GET /http-basics HTTP/1.1\r\nConnection: keep-alive\r\n"
      ++ "User-Agent: violet\r\nHost: violet\r\nHost: www.steves-internet-guide.com\r\n"
      ++ "Content-Length: 0\r\n\r\n").toList
    (by decide) (by decide) (by decide) (by decide)
  ⟨by decide, by decide, h.1, h.2.2.2.2⟩

end HttpRequest

/-! ## `Remove` after `Add` -/

namespace FieldTable

theorem Find.loop_of_split (key value : Str) (a b : List (Str × Str)) (it : Nat)
    (ha : ∀ e ∈ a, e.1 ≠ key) :
    Find.loop key (a ++ (key, value) :: b) it = it + a.length := by
  induction a generalizing it with
  | nil => simp [Find.loop]
  | cons p rest ih =>
    have hp : p.1 ≠ key := ha p (List.mem_cons_self p rest)
    have hrest := ih (it + 1) (fun e he => ha e (List.mem_cons_of_mem p he))
    show Find.loop key (p :: (rest ++ (key, value) :: b)) it = it + (p :: rest).length
    rw [Find.loop, if_neg hp, hrest, List.length_cons]
    omega

/-- The entries left by `Remove` when the first entry named `key` is known. -/
theorem Remove_of_split (t : FieldTable) (key value : Str) (a b : List (Str × Str))
    (hl : t.entries = a ++ (key, value) :: b) (ha : ∀ e ∈ a, e.1 ≠ key) :
    (t.Remove key).entries = a ++ b := by
  have hfind : t.Find key = a.length := by
    simp [Find, begin_, hl, Find.loop_of_split key value a b 0 ha]
  have hend : a.length ≠ t.end_ := by
    simp [end_, hl]
  simp only [Remove, hfind, if_pos hend, hl]
  rw [List.eraseIdx_append_of_length_le (le_refl _)]
  simp

theorem append_singleton_eq_cons_iff {α : Type} (x : α) : ∀ (b : List α) (y : α),
    b ++ [x] = y :: b ↔ x = y ∧ ∀ e ∈ b, e = x := by
  intro b
  induction b with
  | nil => intro y; simp
  | cons c rest ih =>
    intro y
    simp only [List.cons_append, List.cons.injEq, ih c, List.mem_cons, forall_eq_or_imp]
    constructor
    · rintro ⟨hcy, hxc, hall⟩
      exact ⟨hxc.trans hcy, hxc.symm, hall⟩
    · rintro ⟨hxy, hcx, hall⟩
      exact ⟨hcx.trans hxy, hcx.symm, hall⟩

/-- C19, as stated, fails: the table `[("Host", "a")]` holds an entry named `Host`, and
`Remove("Host")` after `Add("Host", "a")` gives back that very table. -/
theorem Remove_Add_gives_back_with_entry :
    (∃ e ∈ (FieldTable.mk [("Host".toList, "a".toList)]).entries, e.1 = "Host".toList) ∧
      ((FieldTable.mk [("Host".toList, "a".toList)]).Add "Host".toList "a".toList).Remove
        "Host".toList
        = FieldTable.mk [("Host".toList, "a".toList)] := by
  decide

/-- C19, amended: `Remove(k)` after `Add(k, v)` gives back the table when it holds no entry
named `k`. When it holds one, the older first entry named `k` is the one deleted, the new
pair `(k, v)` stays as the last entry and `HasField(k)` is still true; the result is then
the old table again only if the deleted entry and all entries after it are the pair
`(k, v)` itself. -/
theorem Remove_after_Add (t : FieldTable) (k v : Str) :
    ((∀ e ∈ t.entries, e.1 ≠ k) → (t.Add k v).Remove k = t) ∧
      ((∃ e ∈ t.entries, e.1 = k) →
        ∃ a w b, t.entries = a ++ (k, w) :: b ∧ (∀ e ∈ a, e.1 ≠ k) ∧
          ((t.Add k v).Remove k).entries = a ++ b ++ [(k, v)] ∧
          ((t.Add k v).Remove k).entries.getLast? = some (k, v) ∧
          ((t.Add k v).Remove k).HasField k = true ∧
          ((t.Add k v).Remove k = t ↔ w = v ∧ ∀ e ∈ b, e = (k, v))) := by
  constructor
  · intro h
    have hrem := Remove_of_split (t.Add k v) k v t.entries [] (by simp [Add]) h
    cases t with
    | mk entries =>
      cases hr : (FieldTable.mk entries).Add k v |>.Remove k with
      | mk left =>
        rw [hr] at hrem
        simp only [List.append_nil] at hrem
        rw [hrem]
  · intro h
    have hne : t.Find k ≠ t.end_ := by
      intro hend
      obtain ⟨e, he, hk⟩ := h
      exact (Find_eq_end_iff t k).mp hend e he hk
    obtain ⟨a, w, b, hl, ha, _⟩ := Find_split t k hne
    have hrem := Remove_of_split (t.Add k v) k w a (b ++ [(k, v)]) (by simp [Add, hl]) ha
    have hrem2 : ((t.Add k v).Remove k).entries = a ++ b ++ [(k, v)] := by
      rw [hrem, List.append_assoc]
    refine ⟨a, w, b, hl, ha, hrem2, by simp [hrem2], ?_, ?_⟩
    · have hfind : ((t.Add k v).Remove k).Find k ≠ ((t.Add k v).Remove k).end_ := by
        intro hend
        have := (Find_eq_end_iff _ k).mp hend (k, v) (by simp [hrem2])
        exact this rfl
      simp [HasField, hfind]
    · have hiff : (t.Add k v).Remove k = t ↔ ((t.Add k v).Remove k).entries = t.entries := by
        constructor
        · intro heq; rw [heq]
        · intro heq
          cases t with
          | mk entries =>
            cases hr : (FieldTable.mk entries).Add k v |>.Remove k with
            | mk left =>
              rw [hr] at heq
              simp only at heq
              rw [heq]
      rw [hiff, hrem, hl, List.append_cancel_left_eq, append_singleton_eq_cons_iff]
      constructor
      · rintro ⟨hx, hall⟩
        exact ⟨(congrArg Prod.snd hx).symm, hall⟩
      · rintro ⟨hx, hall⟩
        exact ⟨by rw [hx], hall⟩

end FieldTable

/-! ## The URI and the method in `ToString` -/

namespace HttpRequest

/-- C14, as stated, fails: with the empty URI the request line is `GET`, two spaces,
`HTTP/1.1`; with the URI `/` it is `GET / HTTP/1.1`. -/
theorem ToString_empty_URI_differs :
    ToString { URI := [] } = some "GET  HTTP/1.1\r\n\r\n".toList ∧
      ToString { URI := "/".toList } = some "GET / HTTP/1.1\r\n\r\n".toList ∧
      ToString { URI := [] } ≠ ToString { URI := "/".toList } := by
  decide

/-- C14, amended: `ToString` writes the member `URI` as it is. A request whose URI was
never assigned has the URI `/` (the default member initialiser); a request whose URI is
the empty string gets a request line with an empty target (two spaces in a row), and its
bytes differ from those of the same request with the URI `/`. -/
theorem ToString_writes_URI_verbatim (r : HttpRequest) (hm : r.Method = Get) :
    ({} : HttpRequest).URI = "/".toList ∧
      ToString { r with URI := [] }
        = some ("GET  HTTP/".toList ++ showInt r.MajorVersion ++ ".".toList
            ++ showInt r.MinorVersion ++ "\r\n".toList
            ++ (r.Fields.entries.map headerLine).flatten ++ "\r\n".toList ++ r.Body) ∧
      ToString { r with URI := [] } ≠ ToString { r with URI := "/".toList } := by
  have h1 := ToString_Get { r with URI := [] } hm
  have h2 := ToString_Get { r with URI := "/".toList } hm
  refine ⟨rfl, ?_, ?_⟩
  · rw [h1]
    simp
  · rw [h1, h2]
    simp

/-- C14, amended, at the request of `main`. -/
theorem ToString_writes_URI_verbatim_witness :
    mainRequest.Method = Get ∧
      ({} : HttpRequest).URI = "/".toList ∧
      ToString { mainRequest with URI := [] }
        = some ("GET  HTTP/".toList ++ showInt mainRequest.MajorVersion ++ ".".toList
            ++ showInt mainRequest.MinorVersion ++ "\r\n".toList
            ++ (mainRequest.Fields.entries.map headerLine).flatten ++ "\r\n".toList
            ++ mainRequest.Body) ∧
      ToString { mainRequest with URI := [] }
        ≠ ToString { mainRequest with URI := "/".toList } :=
  ⟨by decide, ToString_writes_URI_verbatim mainRequest (by decide)⟩

end HttpRequest

/-! ## The exchange in `SendRequest` -/

namespace HttpClient

theorem SendRequest.loop_done_then (chunks : List Str)
    (tail : List (Socket.Status × Str)) (received : Str)
    (htail : ∀ r ∈ tail.head?, r.1 ≠ Socket.Status.Done) :
    SendRequest.loop (chunks.map (fun chunk => (Socket.Status.Done, chunk)) ++ tail) received
      = (received ++ chunks.flatten, tail.tail) := by
  induction chunks generalizing received with
  | nil =>
    cases tail with
    | nil => simp [SendRequest.loop]
    | cons r rest =>
      rcases r with ⟨status, data⟩
      have hst : status ≠ Socket.Status.Done := htail (status, data) (by simp)
      simp [SendRequest.loop, hst]
  | cons chunk rest ih => simp [SendRequest.loop, ih]

/-- The result of `SendRequest` in terms of the loop, once `ToString` is known. -/
theorem SendRequest_eq (request : HttpRequest) (sock : TcpSocket) (out : Str)
    (h : request.ToString = some out) :
    SendRequest { Socket := sock } request
      = some (if sock.sendStatus = Socket.Status.Done then
          ((SendRequest.loop sock.incoming []).1,
            { Socket := { sendStatus := sock.sendStatus,
                          incoming := (SendRequest.loop sock.incoming []).2,
                          sent := sock.sent ++ [out] } })
        else
          ([], { Socket := { sendStatus := sock.sendStatus, incoming := sock.incoming,
                             sent := sock.sent ++ [out] } })) := by
  simp only [SendRequest, h, TcpSocket.send, Option.bind_eq_bind, Option.some_bind]
  split <;> rfl

/-- C15, as stated, fails: for the request of `main`, the string returned when the send
reports `Error` is the string returned when the send reports `Done` and the peer closes
without sending a byte: the empty string in both cases. -/
theorem SendRequest_failed_send_indistinct :
    (SendRequest { Socket := { sendStatus := Socket.Status.Error, incoming := [] } }
        mainRequest).map Prod.fst = some [] ∧
      (SendRequest { Socket := { sendStatus := Socket.Status.Done, incoming := [] } }
        mainRequest).map Prod.fst = some [] := by
  decide

/-- C15, amended: when the send does not report `Done`, `SendRequest` returns the empty
string and calls `receive` not at all (the send itself was called once, with the bytes of
`ToString`); the empty string is also what it returns when the send reports `Done` and
the peer closes without sending a byte. -/
theorem SendRequest_failed_send_empty (request : HttpRequest) (sock : TcpSocket)
    (hm : request.Method = HttpRequest.Get)
    (hs : sock.sendStatus ≠ Socket.Status.Done) :
    ∃ out client client2,
      request.ToString = some out ∧
      SendRequest { Socket := sock } request = some ([], client) ∧
      client.Socket.incoming = sock.incoming ∧
      client.Socket.sent = sock.sent ++ [out] ∧
      SendRequest { Socket := { sock with sendStatus := Socket.Status.Done, incoming := [] } }
        request = some ([], client2) := by
  have hout := HttpRequest.ToString_Get request hm
  have h1 := SendRequest_eq request sock _ hout
  have h2 := SendRequest_eq request
    { sock with sendStatus := Socket.Status.Done, incoming := [] } _ hout
  rw [if_neg hs] at h1
  simp only [if_true, SendRequest.loop] at h2
  exact ⟨_, _, _, hout, h1, rfl, rfl, h2⟩

/-- C15, amended, at the request of `main` and a socket whose send reports `Error`. -/
theorem SendRequest_failed_send_empty_witness :
    ∃ out client client2,
      mainRequest.ToString = some out ∧
      SendRequest
        { Socket := { sendStatus := Socket.Status.Error,
                      incoming := [(Socket.Status.Done, "HTTP/1.1 200 OK\r\n\r\n".toList)] } }
        mainRequest = some ([], client) ∧
      client.Socket.incoming = [(Socket.Status.Done, "HTTP/1.1 200 OK\r\n\r\n".toList)] ∧
      client.Socket.sent = [] ++ [out] ∧
      SendRequest { Socket := { sendStatus := Socket.Status.Done, incoming := [] } }
        mainRequest = some ([], client2) :=
  SendRequest_failed_send_empty mainRequest
    { sendStatus := Socket.Status.Error,
      incoming := [(Socket.Status.Done, "HTTP/1.1 200 OK\r\n\r\n".toList)] }
    (by decide) (by decide)

/-- C18: when the send reports `Done` and the receive calls report `Done` for the chunks
`c1 .. cn` (of any size, so also of at most 1024 bytes) and then something else, or
nothing more, `SendRequest` returns `c1 ++ .. ++ cn` in arrival order, whatever the
chunks hold; the bytes of the first receive that is not `Done` are not appended and the
results after it are not consumed; the send was called exactly once, with the bytes of
`ToString`. -/
theorem SendRequest_returns_done_chunks (request : HttpRequest) (sock : TcpSocket)
    (chunks : List Str) (tail : List (Socket.Status × Str))
    (hm : request.Method = HttpRequest.Get)
    (hs : sock.sendStatus = Socket.Status.Done)
    (hin : sock.incoming = chunks.map (fun chunk => (Socket.Status.Done, chunk)) ++ tail)
    (htail : ∀ r ∈ tail.head?, r.1 ≠ Socket.Status.Done) :
    ∃ out client,
      request.ToString = some out ∧
      SendRequest { Socket := sock } request = some (chunks.flatten, client) ∧
      client.Socket.sent = sock.sent ++ [out] ∧
      client.Socket.incoming = tail.tail := by
  have hout := HttpRequest.ToString_Get request hm
  have h1 := SendRequest_eq request sock _ hout
  rw [if_pos hs, hin, SendRequest.loop_done_then chunks tail [] htail] at h1
  simp only [List.nil_append] at h1
  exact ⟨_, _, hout, h1, rfl, rfl⟩

/-- C18 at the request of `main`: two chunks reported `Done`, then `Error` with bytes in
the buffer, then one more result. -/
theorem SendRequest_returns_done_chunks_witness :
    TcpSocket.Bounded
        { sendStatus := Socket.Status.Done,
          incoming := ["ab".toList, "cd".toList].map
              (fun chunk => (Socket.Status.Done, chunk))
            ++ [(Socket.Status.Error, "zz".toList), (Socket.Status.Done, "ee".toList)] }
        1024 ∧
      ∃ out client,
        mainRequest.ToString = some out ∧
        SendRequest
          { Socket :=
            { sendStatus := Socket.Status.Done,
              incoming := ["ab".toList, "cd".toList].map
                  (fun chunk => (Socket.Status.Done, chunk))
                ++ [(Socket.Status.Error, "zz".toList), (Socket.Status.Done, "ee".toList)] } }
          mainRequest = some (["ab".toList, "cd".toList].flatten, client) ∧
        client.Socket.sent = [] ++ [out] ∧
        client.Socket.incoming
          = [(Socket.Status.Error, "zz".toList), (Socket.Status.Done, "ee".toList)].tail :=
  ⟨by simp [TcpSocket.Bounded],
    SendRequest_returns_done_chunks mainRequest
      { sendStatus := Socket.Status.Done,
        incoming := ["ab".toList, "cd".toList].map (fun chunk => (Socket.Status.Done, chunk))
          ++ [(Socket.Status.Error, "zz".toList), (Socket.Status.Done, "ee".toList)] }
      ["ab".toList, "cd".toList]
      [(Socket.Status.Error, "zz".toList), (Socket.Status.Done, "ee".toList)]
      (by decide) rfl rfl (by decide)⟩

end HttpClient

/-! ## What `Parse` reads and what it leaves out -/

theorem sscanf_literals (lits : Str) (fmt : List Directive) (input : Str)
    (h : sscanf (lits.map Directive.lit ++ fmt) input ≠ []) : lits <+: input := by
  induction lits generalizing input with
  | nil => exact List.nil_prefix
  | cons c rest ih =>
    cases input with
    | nil => simp [sscanf] at h
    | cons d tail =>
      simp only [List.map_cons, List.cons_append, sscanf] at h
      by_cases hdc : d = c
      · rw [if_pos hdc] at h
        rw [hdc]
        exact (List.prefix_cons_inj c).mpr (ih tail h)
      · rw [if_neg hdc] at h
        exact absurd rfl h

/-- An input that does not begin with `HTTP/` stops the scan before any conversion. -/
theorem sscanf_statusFormat_of_not_prefix (input : Str)
    (h : ¬ ['H', 'T', 'T', 'P', '/'] <+: input) : sscanf statusFormat (c_str input) = [] := by
  by_contra hne
  have hfmt : statusFormat = ['H', 'T', 'T', 'P', '/'].map Directive.lit
      ++ [Directive.int, Directive.lit '.', Directive.int, Directive.space,
          Directive.int, Directive.space, Directive.space] := rfl
  rw [hfmt] at hne
  have hpre := sscanf_literals _ _ _ hne
  exact h (hpre.trans (List.takeWhile_prefix _))

theorem c_str_head_not_digit (tail : Str) (htail : ∀ c ∈ tail.head?, isdigit c = false) :
    ∀ c ∈ (c_str tail).head?, isdigit c = false := by
  cases tail with
  | nil => simp [c_str]
  | cons d rest =>
    intro c hc
    by_cases hd : d = Char.ofNat 0
    · simp [c_str, hd] at hc
    · have hdc : d = c := by simpa [c_str, hd] using hc
      exact htail c (by simp [hdc])

/-- The scan of `"HTTP/%d.%d %d\r\n"` over three runs of digits, the third followed by
anything that does not begin with a digit. -/
theorem sscanf_statusFormat_of_tail (mj mn st tail : Str)
    (hmj : mj ≠ [] ∧ ∀ c ∈ mj, isdigit c = true)
    (hmn : mn ≠ [] ∧ ∀ c ∈ mn, isdigit c = true)
    (hst : st ≠ [] ∧ ∀ c ∈ st, isdigit c = true)
    (htail : ∀ c ∈ tail.head?, isdigit c = false) :
    sscanf statusFormat
        (['H', 'T', 'T', 'P', '/'] ++ (mj ++ ('.' :: (mn ++ (' ' :: (st ++ tail))))))
      = [toLong (digitsValue mj), toLong (digitsValue mn), toLong (digitsValue st)] := by
  have h1 := scanInt_digits mj ('.' :: (mn ++ (' ' :: (st ++ tail)))) hmj.1 hmj.2
    (by intro c hc; simp only [List.head?_cons, Option.mem_def, Option.some.injEq] at hc
        subst hc; decide)
  have h2 := scanInt_digits mn (' ' :: (st ++ tail)) hmn.1 hmn.2
    (by intro c hc; simp only [List.head?_cons, Option.mem_def, Option.some.injEq] at hc
        subst hc; decide)
  have h3 := scanInt_digits st tail hst.1 hst.2 htail
  have hskip : (' ' :: (st ++ tail)).dropWhile isspace = st ++ tail := by
    obtain ⟨hne, hall⟩ := hst
    cases st with
    | nil => exact absurd rfl hne
    | cons c st =>
      have hsp := isdigit_not_isspace c (hall c (List.mem_cons_self c st))
      have hspace : isspace ' ' = true := by decide
      simp [hspace, hsp]
  simp [statusFormat, sscanf, h1, h2, h3, hskip]

namespace HttpResponce

/-- What `Parse` returns on an input that starts with `HTTP/`, digits, `.`, digits, a
space and digits, followed by anything that does not begin with a digit. -/
theorem Parse_of_status_head (mj mn st tail : Str) (status : Int)
    (hmj : mj ≠ [] ∧ ∀ c ∈ mj, isdigit c = true)
    (hmn : mn ≠ [] ∧ ∀ c ∈ mn, isdigit c = true)
    (hst : st ≠ [] ∧ ∀ c ∈ st, isdigit c = true)
    (htail : ∀ c ∈ tail.head?, isdigit c = false) :
    Parse (['H', 'T', 'T', 'P', '/'] ++ (mj ++ ('.' :: (mn ++ (' ' :: (st ++ tail)))))) status
      = { Fields := { entries := [] }, Status := toInt32 (toLong (digitsValue st)),
          MajorVersion := toUInt32 (toLong (digitsValue mj)),
          MinorVersion := toUInt32 (toLong (digitsValue mn)), Body := [] } := by
  have hinput : ['H', 'T', 'T', 'P', '/'] ++ (mj ++ ('.' :: (mn ++ (' ' :: (st ++ tail)))))
      = (['H', 'T', 'T', 'P', '/'] ++ (mj ++ ('.' :: (mn ++ (' ' :: st))))) ++ tail := by
    simp
  have hnul : ∀ c ∈ ['H', 'T', 'T', 'P', '/'] ++ (mj ++ ('.' :: (mn ++ (' ' :: st)))),
      c ≠ Char.ofNat 0 := by
    intro c hc
    simp only [List.mem_append, List.mem_cons, List.mem_singleton, List.not_mem_nil,
      or_false] at hc
    rcases hc with hc | hc | hc | hc | hc | hc
    · rcases hc with hc | hc | hc | hc | hc <;> (subst hc; decide)
    · exact isdigit_ne_nul c (hmj.2 c hc)
    · subst hc; decide
    · exact isdigit_ne_nul c (hmn.2 c hc)
    · subst hc; decide
    · exact isdigit_ne_nul c (hst.2 c hc)
  have hscan : sscanf statusFormat (c_str (['H', 'T', 'T', 'P', '/'] ++ (mj ++ ('.' :: (mn
      ++ (' ' :: (st ++ tail))))))) = [toLong (digitsValue mj), toLong (digitsValue mn),
        toLong (digitsValue st)] := by
    rw [hinput, c_str_append_of_no_nul _ _ hnul]
    rw [← sscanf_statusFormat_of_tail mj mn st (c_str tail) hmj hmn hst
      (c_str_head_not_digit tail htail)]
    simp
  simp only [Parse, hscan]

theorem Parse_Fields_Body (input : Str) (status : Int) :
    (Parse input status).Fields = { entries := [] } ∧ (Parse input status).Body = [] := by
  unfold Parse
  generalize sscanf statusFormat (c_str input) = converted
  rcases converted with _ | ⟨a, _ | ⟨b, _ | ⟨c, l⟩⟩⟩ <;> exact ⟨rfl, rfl⟩

/-- C11, as stated, fails: the input `HTTP/1.1 200 OK`, which ends before any CR LF, gives
the same response as the terminated status line, whatever the uninitialised local held;
and the empty input gives, when that local holds 200, the very response of the
well-formed input `HTTP/0.0 200 OK` CR LF CR LF. No failure is reported in either case. -/
theorem Parse_reports_no_failure :
    '\r' ∉ "HTTP/1.1 200 OK".toList ∧
      (∀ status : Int, Parse "HTTP/1.1 200 OK".toList status
        = Parse "HTTP/1.1 200 OK\r\n\r\n".toList status) ∧
      Parse [] 200 = Parse "HTTP/0.0 200 OK\r\n\r\n".toList 0 := by
  refine ⟨by decide, fun status => rfl, by decide⟩

/-- C11, amended: `Parse` has no failure result and returns a response for every input.
For an input that does not begin with `HTTP/` (the empty input included) the version
members keep their defaults 0 and 0, and the header table and the body are empty. -/
theorem Parse_without_HTTP_prefix (input : Str) (status : Int)
    (h : ¬ "HTTP/".toList <+: input) :
    (Parse input status).MajorVersion = 0 ∧ (Parse input status).MinorVersion = 0 ∧
      (Parse input status).Fields = { entries := [] } ∧ (Parse input status).Body = [] := by
  have hscan := sscanf_statusFormat_of_not_prefix input h
  refine ⟨?_, ?_, (Parse_Fields_Body input status).1, (Parse_Fields_Body input status).2⟩
  · simp only [Parse, hscan]
  · simp only [Parse, hscan]

/-- C11, amended, at the empty input. -/
theorem Parse_without_HTTP_prefix_witness :
    (¬ "HTTP/".toList <+: ([] : Str)) ∧
      ((Parse [] 7).MajorVersion = 0 ∧ (Parse [] 7).MinorVersion = 0 ∧
        (Parse [] 7).Fields = { entries := [] } ∧ (Parse [] 7).Body = []) :=
  ⟨by decide, Parse_without_HTTP_prefix [] 7 (by decide)⟩

/-- C12, as stated, fails: the status line `HTTP/1.1 2147483648 X` carries the decimal
code 2147483648, which the 32-bit `int` behind `%d` does not hold, and the status of the
response returned by `Parse` is -2147483648, whatever the uninitialised local held. -/
theorem Parse_status_beyond_int :
    (∀ status : Int,
        (Parse "HTTP/1.1 2147483648 X\r\n\r\n".toList status).Status = -2147483648) ∧
      (∀ status : Int,
        (Parse "HTTP/1.1 2147483648 X\r\n\r\n".toList status).Status ≠ 2147483648) := by
  have hvalue : ∀ status : Int,
      (Parse "HTTP/1.1 2147483648 X\r\n\r\n".toList status).Status = -2147483648 :=
    fun _ => rfl
  refine ⟨hvalue, fun status h => ?_⟩
  rw [hvalue status] at h
  exact absurd h (by decide)

/-- C12, amended: for every status line `HTTP/<digits>.<digits> <S>` with `S` a decimal
numeral of a value below `2 ^ 31` (so every three-digit code), followed by anything that
does not begin with a digit, the status of the response returned by `Parse` is `S`,
whether or not `S` is in the catalog of `Status`. -/
theorem Parse_status_any_code (mj mn tail : Str) (code : Nat) (status : Int)
    (hmj : mj ≠ [] ∧ ∀ c ∈ mj, isdigit c = true)
    (hmn : mn ≠ [] ∧ ∀ c ∈ mn, isdigit c = true)
    (hcode : code < 2 ^ 31)
    (htail : ∀ c ∈ tail.head?, isdigit c = false) :
    (Parse ("HTTP/".toList ++ mj ++ ".".toList ++ mn ++ " ".toList ++ to_string code ++ tail)
        status).Status = code := by
  obtain ⟨hs1, hs2, hs3⟩ := to_string_spec code
  have hinput : "HTTP/".toList ++ mj ++ ".".toList ++ mn ++ " ".toList ++ to_string code ++ tail
      = ['H', 'T', 'T', 'P', '/'] ++ (mj ++ ('.' :: (mn ++ (' ' :: (to_string code ++ tail)))))
      := by
    simp
  rw [hinput, Parse_of_status_head mj mn (to_string code) tail status hmj hmn ⟨hs1, hs2⟩ htail,
    hs3, toLong_of_lt code hcode]
  exact toInt32_of_lt code hcode

/-- C12, amended, at the code 418, which is not in the catalog, in `HTTP/1.1 418 Teapot`. -/
theorem Parse_status_any_code_witness :
    (418 : Int) ∉ Status.catalog ∧
      "HTTP/".toList ++ "1".toList ++ ".".toList ++ "1".toList ++ " ".toList ++ to_string 418
          ++ " Teapot\r\n\r\n".toList
        = "HTTP/1.1 418 Teapot\r\n\r\n".toList ∧
      (Parse ("HTTP/".toList ++ "1".toList ++ ".".toList ++ "1".toList ++ " ".toList
          ++ to_string 418 ++ " Teapot\r\n\r\n".toList) 0).Status = (418 : Nat) :=
  ⟨by decide, by decide,
    Parse_status_any_code "1".toList "1".toList " Teapot\r\n\r\n".toList 418 0
      (by decide) (by decide) (by decide) (by decide)⟩

/-- C13, as stated, fails: for the response that declares chunked transfer coding and
carries the chunked body `4` CR LF `Wiki` CR LF `5` CR LF `pedia` CR LF `0` CR LF CR LF, the
`Body` of the response returned by `Parse` is empty, not `Wikipedia`. -/
theorem Parse_decodes_no_chunks :
    (Parse ("HTTP/1.1 200 OK\r\nTransfer-Encoding: chunked\r\n\r\n"
        ++ "4\r\nWiki\r\n5\r\npedia\r\n0\r\n\r\n").toList 0).Body = [] ∧
      (Parse ("HTTP/1.1 200 OK\r\nTransfer-Encoding: chunked\r\n\r\n"
        ++ "4\r\nWiki\r\n5\r\npedia\r\n0\r\n\r\n").toList 0).Body ≠ "Wikipedia".toList := by
  decide

/-- C13, amended: for every input, chunked or not, the `Body` of the response returned by
`Parse` is empty: `Parse` never assigns it. -/
theorem Parse_Body_empty (input : Str) (status : Int) : (Parse input status).Body = [] :=
  (Parse_Fields_Body input status).2

/-- C17, as stated, fails: two inputs with the same first line `HTTP/1.1 ` and different
header lines give different responses, because the status is scanned from the second
line (`%d` skips CR and LF like any white space). -/
theorem Parse_reads_past_first_line :
    getline "HTTP/1.1 \r\n404: x\r\n\r\n".toList '\n'
        = getline "HTTP/1.1 \r\n500: x\r\n\r\n".toList '\n' ∧
      (∀ status : Int, (Parse "HTTP/1.1 \r\n404: x\r\n\r\n".toList status).Status = 404) ∧
      (∀ status : Int, (Parse "HTTP/1.1 \r\n500: x\r\n\r\n".toList status).Status = 500) := by
  refine ⟨by decide, fun status => rfl, fun status => rfl⟩

/-- C17, amended: for every input the response returned by `Parse` has an empty header
table and an empty `Body`; and when the input begins with `HTTP/<digits>.<digits> <digits>`
followed by anything that does not begin with a digit, what follows these three numbers
(the rest of the first line, header lines, body bytes) has no effect on the result, nor
has the value the uninitialised local held. -/
theorem Parse_ignores_what_follows (input : Str) (status : Int)
    (mj mn st tail1 tail2 : Str) (status1 status2 : Int)
    (hmj : mj ≠ [] ∧ ∀ c ∈ mj, isdigit c = true)
    (hmn : mn ≠ [] ∧ ∀ c ∈ mn, isdigit c = true)
    (hst : st ≠ [] ∧ ∀ c ∈ st, isdigit c = true)
    (htail1 : ∀ c ∈ tail1.head?, isdigit c = false)
    (htail2 : ∀ c ∈ tail2.head?, isdigit c = false) :
    (Parse input status).Fields = { entries := [] } ∧ (Parse input status).Body = [] ∧
      Parse ("HTTP/".toList ++ mj ++ ".".toList ++ mn ++ " ".toList ++ st ++ tail1) status1
        = Parse ("HTTP/".toList ++ mj ++ ".".toList ++ mn ++ " ".toList ++ st ++ tail2)
            status2 := by
  refine ⟨(Parse_Fields_Body input status).1, (Parse_Fields_Body input status).2, ?_⟩
  have hshape : ∀ tail : Str, "HTTP/".toList ++ mj ++ ".".toList ++ mn ++ " ".toList ++ st
      ++ tail = ['H', 'T', 'T', 'P', '/'] ++ (mj ++ ('.' :: (mn ++ (' ' :: (st ++ tail))))) := by
    intro tail
    simp
  rw [hshape tail1, hshape tail2,
    Parse_of_status_head mj mn st tail1 status1 hmj hmn hst htail1,
    Parse_of_status_head mj mn st tail2 status2 hmj hmn hst htail2]

/-- C17, amended, at `HTTP/1.1 200` followed by two different continuations. -/
theorem Parse_ignores_what_follows_witness :
    (Parse "garbage".toList 5).Fields = { entries := [] } ∧
      (Parse "garbage".toList 5).Body = [] ∧
      Parse ("HTTP/".toList ++ "1".toList ++ ".".toList ++ "1".toList ++ " ".toList
          ++ "200".toList ++ " OK\r\nHost: a\r\n\r\nbody".toList) 3
        = Parse ("HTTP/".toList ++ "1".toList ++ ".".toList ++ "1".toList ++ " ".toList
          ++ "200".toList ++ "\r\nContent-Length: 9\r\n\r\nWikipedia".toList) 4 :=
  Parse_ignores_what_follows "garbage".toList 5 "1".toList "1".toList "200".toList
    " OK\r\nHost: a\r\n\r\nbody".toList "\r\nContent-Length: 9\r\n\r\nWikipedia".toList 3 4
    (by decide) (by decide) (by decide) (by decide) (by decide)

end HttpResponce

/-! ## The blank line in the output of `ToString` -/

theorem splitCRLF_cons_cons (c d : Char) (rest : Str) :
    splitCRLF (c :: d :: rest)
      = if c = '\r' ∧ d = '\n' then [] :: splitCRLF rest
        else
          match splitCRLF (d :: rest) with
          | line :: lines => (c :: line) :: lines
          | [] => [[c]] := by
  rw [splitCRLF]

theorem splitCRLF_of_no_CR (line : Str) (h : '\r' ∉ line) : splitCRLF line = [line] := by
  induction line with
  | nil => rfl
  | cons c rest ih =>
    have hc : c ≠ '\r' := fun hc => h (hc ▸ List.mem_cons_self c rest)
    have hrest : '\r' ∉ rest := fun hm => h (List.mem_cons_of_mem c hm)
    cases rest with
    | nil => rfl
    | cons d rest =>
      rw [splitCRLF_cons_cons, if_neg (fun hcd => hc hcd.1), ih hrest]

theorem splitCRLF_line_append (line rest : Str) (h : '\r' ∉ line) :
    splitCRLF (line ++ '\r' :: '\n' :: rest) = line :: splitCRLF rest := by
  induction line with
  | nil =>
    rw [List.nil_append, splitCRLF_cons_cons, if_pos ⟨rfl, rfl⟩]
  | cons c tail ih =>
    have hc : c ≠ '\r' := fun hc => h (hc ▸ List.mem_cons_self c tail)
    have htail : '\r' ∉ tail := fun hm => h (List.mem_cons_of_mem c hm)
    have hih := ih htail
    cases tail with
    | nil =>
      rw [List.nil_append] at hih
      rw [List.cons_append, List.nil_append, splitCRLF_cons_cons,
        if_neg (fun hcd => hc hcd.1), hih]
    | cons d tail =>
      rw [List.cons_append] at hih
      rw [List.cons_append, List.cons_append, splitCRLF_cons_cons,
        if_neg (fun hcd => hc hcd.1), hih]

/-- Lines without CR, joined by CR LF, split back into these lines. -/
theorem splitCRLF_lines (ls : List Str) : ∀ (first : Str), '\r' ∉ first →
    (∀ l ∈ ls, '\r' ∉ l) →
    splitCRLF (first ++ (ls.map (fun l => '\r' :: '\n' :: l)).flatten) = first :: ls := by
  induction ls with
  | nil =>
    intro first hfirst _
    simpa using splitCRLF_of_no_CR first hfirst
  | cons l rest ih =>
    intro first hfirst hall
    have hl : '\r' ∉ l := hall l (List.mem_cons_self l rest)
    have hrest := ih l hl (fun x hx => hall x (List.mem_cons_of_mem l hx))
    simp only [List.map_cons, List.flatten_cons, List.cons_append]
    rw [splitCRLF_line_append first _ hfirst, hrest]

theorem prefix_of_append_CR (line pre x y : Str) (h : '\r' ∉ line)
    (heq : line ++ '\r' :: x = pre ++ '\r' :: y) :
    ∃ a, pre = line ++ a ∧ '\r' :: x = a ++ '\r' :: y := by
  rcases List.append_eq_append_iff.mp heq with ⟨a, ha, hb⟩ | ⟨c, hc, hd⟩
  · exact ⟨a, ha, hb⟩
  · cases c with
    | nil =>
      refine ⟨[], by simpa using hc.symm, ?_⟩
      simpa using hd.symm
    | cons e c =>
      simp only [List.cons_append, List.cons.injEq] at hd
      exact absurd (hc ▸ List.mem_append_right pre (hd.1 ▸ List.mem_cons_self e c)) h

/-- In lines joined by CR LF, none of them with a CR and none after the first empty,
followed by CR LF CR LF, no CR LF CR LF starts before the end of the last line. -/
theorem first_blank_line (ls : List Str) : ∀ (first pre post rest : Str),
    '\r' ∉ first → (∀ l ∈ ls, l ≠ [] ∧ '\r' ∉ l) →
    first ++ (ls.map (fun l => '\r' :: '\n' :: l)).flatten
        ++ '\r' :: '\n' :: '\r' :: '\n' :: rest
      = pre ++ '\r' :: '\n' :: '\r' :: '\n' :: post →
    (first ++ (ls.map (fun l => '\r' :: '\n' :: l)).flatten) <+: pre := by
  induction ls with
  | nil =>
    intro first pre post rest hfirst _ heq
    simp only [List.map_nil, List.flatten_nil, List.append_nil] at heq ⊢
    obtain ⟨a, ha, _⟩ := prefix_of_append_CR first pre _ _ hfirst heq
    exact ⟨a, ha.symm⟩
  | cons l tail ih =>
    intro first pre post rest hfirst hall heq
    obtain ⟨hlne, hl⟩ := hall l (List.mem_cons_self l tail)
    simp only [List.map_cons, List.flatten_cons, List.cons_append, List.append_assoc]
      at heq ⊢
    obtain ⟨a, ha, hb⟩ := prefix_of_append_CR first pre _ _ hfirst heq
    rw [ha]
    apply (List.prefix_append_right_inj first).mpr
    cases a with
    | nil =>
      simp only [List.nil_append, List.cons.injEq, true_and] at hb
      cases l with
      | nil => exact absurd rfl hlne
      | cons c l =>
        simp only [List.cons_append, List.cons.injEq] at hb
        exact absurd (hb.1 ▸ List.mem_cons_self c l) hl
    | cons x a =>
      cases a with
      | nil =>
        simp only [List.cons_append, List.nil_append, List.cons.injEq] at hb
        exact absurd hb.2.1 (by decide)
      | cons y a =>
        simp only [List.cons_append, List.cons.injEq] at hb
        obtain ⟨hx, hy, hrest⟩ := hb
        rw [← hx, ← hy]
        apply (List.prefix_cons_inj '\r').mpr
        apply (List.prefix_cons_inj '\n').mpr
        have := ih l a post rest hl (fun m hm => hall m (List.mem_cons_of_mem l hm))
          (by simpa using hrest)
        simpa using this

namespace HttpRequest

theorem headerLines_shift (es : List (Str × Str)) :
    '\r' :: '\n' :: (es.map headerLine).flatten
      = ((es.map fieldLine).map (fun l => '\r' :: '\n' :: l)).flatten ++ ['\r', '\n'] := by
  induction es with
  | nil => rfl
  | cons f rest ih =>
    simp only [List.map_cons, List.flatten_cons, List.cons_append, List.append_assoc]
    rw [← ih]
    simp [headerLine, fieldLine]

theorem requestLine_no_CR (r : HttpRequest) (h : '\r' ∉ r.URI) : '\r' ∉ requestLine r := by
  intro hmem
  simp only [requestLine, List.mem_append, List.mem_cons, List.mem_singleton,
    List.not_mem_nil, or_false] at hmem
  rcases hmem with ((((h1 | h1) | h1) | h1) | h1) | h1
  · rcases h1 with h1 | h1 | h1 | h1 <;> exact absurd h1 (by decide)
  · exact h h1
  · rcases h1 with h1 | h1 | h1 | h1 | h1 | h1 <;> exact absurd h1 (by decide)
  · exact showInt_not_mem _ '\r' (by decide) (by decide) h1
  · exact absurd h1 (by decide)
  · exact showInt_not_mem _ '\r' (by decide) (by decide) h1

theorem fieldLine_no_CR (field : Str × Str) (h1 : '\r' ∉ field.1) (h2 : '\r' ∉ field.2) :
    fieldLine field ≠ [] ∧ '\r' ∉ fieldLine field := by
  constructor
  · simp [fieldLine]
  · intro hmem
    simp only [fieldLine, List.mem_append, List.mem_cons, List.mem_singleton,
      List.not_mem_nil, or_false] at hmem
    rcases hmem with (hmem | hmem) | hmem
    · exact h1 hmem
    · rcases hmem with hmem | hmem <;> exact absurd hmem (by decide)
    · exact h2 hmem

/-- The output of `ToString` as the lines of the header section joined by CR LF, then
CR LF CR LF, then the body. -/
theorem ToString_lines (r : HttpRequest) (hm : r.Method = Get) :
    r.ToString = some (requestLine r
      ++ ((r.Fields.entries.map fieldLine).map (fun l => '\r' :: '\n' :: l)).flatten
      ++ '\r' :: '\n' :: '\r' :: '\n' :: r.Body) := by
  rw [ToString_Get r hm]
  have hshift := headerLines_shift r.Fields.entries
  have hout : ['G', 'E', 'T', ' '] ++ r.URI ++ [' ', 'H', 'T', 'T', 'P', '/']
      ++ showInt r.MajorVersion ++ ['.'] ++ showInt r.MinorVersion ++ ['\r', '\n']
      ++ (r.Fields.entries.map headerLine).flatten ++ ['\r', '\n'] ++ r.Body
      = requestLine r ++ ('\r' :: '\n' :: (r.Fields.entries.map headerLine).flatten)
        ++ ['\r', '\n'] ++ r.Body := by
    simp [requestLine]
  rw [hout, hshift]
  simp

/-- C20: for every request (method `Get`) whose URI, header names and header values hold
neither CR nor LF, the output of `ToString` is a head, CR LF CR LF, and the body; every
occurrence of CR LF CR LF in the output starts at the end of the head or later, so the
first one is the end of the header section; and the head splits on CR LF into the
request line followed by one line `name: value` per entry of the table, in table order.
(The last part shows the remark of the claim: a header value holding CR LF is written as
it is and adds a line.) -/
theorem ToString_first_blank_line (r : HttpRequest) (hm : r.Method = Get)
    (hr : r.NoLineBreak) :
    ∃ out head,
      r.ToString = some out ∧
      out = head ++ "\r\n\r\n".toList ++ r.Body ∧
      (∀ pre post, out = pre ++ "\r\n\r\n".toList ++ post → head <+: pre) ∧
      splitCRLF head = requestLine r :: r.Fields.entries.map fieldLine ∧
      (∃ injected,
        ToString { Fields := ⟨[("X".toList, "1\r\nY: 2".toList)]⟩ } = some injected ∧
        splitCRLF injected
          = ["GET / HTTP/1.1".toList, "X: 1".toList, "Y: 2".toList, [], []]) := by
  obtain ⟨huri, _, hfields⟩ := hr
  have hreq := requestLine_no_CR r huri
  have hlines : ∀ l ∈ r.Fields.entries.map fieldLine, l ≠ [] ∧ '\r' ∉ l := by
    intro l hl
    obtain ⟨field, hf, rfl⟩ := List.mem_map.mp hl
    obtain ⟨h1, _, h2, _⟩ := hfields field hf
    exact fieldLine_no_CR field h1 h2
  refine ⟨_, requestLine r
      ++ ((r.Fields.entries.map fieldLine).map (fun l => '\r' :: '\n' :: l)).flatten,
    ToString_lines r hm, by simp, ?_, ?_, ⟨_, rfl, by decide⟩⟩
  · intro pre post heq
    exact first_blank_line (r.Fields.entries.map fieldLine) (requestLine r) pre post r.Body
      hreq hlines (by simpa using heq)
  · exact splitCRLF_lines (r.Fields.entries.map fieldLine) (requestLine r) hreq
      (fun l hl => (hlines l hl).2)

/-- C20 at the request of `main`. -/
theorem ToString_first_blank_line_witness :
    mainRequest.NoLineBreak ∧
      ∃ out head,
        mainRequest.ToString = some out ∧
        out = head ++ "\r\n\r\n".toList ++ mainRequest.Body ∧
        (∀ pre post, out = pre ++ "\r\n\r\n".toList ++ post → head <+: pre) ∧
        splitCRLF head = requestLine mainRequest :: mainRequest.Fields.entries.map fieldLine ∧
        (∃ injected,
          ToString { Fields := ⟨[("X".toList, "1\r\nY: 2".toList)]⟩ } = some injected ∧
          splitCRLF injected
            = ["GET / HTTP/1.1".toList, "X: 1".toList, "Y: 2".toList, [], []]) :=
  ⟨by decide, ToString_first_blank_line mainRequest (by decide) (by decide)⟩

end HttpRequest

/-! ## The decimal numerals written by `ToString` -/

theorem digitChar_eq_ofNat (k : Nat) (h : k < 10) : Nat.digitChar k = Char.ofNat (k + 48) := by
  interval_cases k <;> rfl

theorem toDigitsCore_eq_digits (fuel : Nat) : ∀ (n : Nat) (ds : Str), n < fuel → 0 < n →
    Nat.toDigitsCore 10 fuel n ds
      = (Nat.digits 10 n).reverse.map (fun d => Char.ofNat (d + 48)) ++ ds := by
  induction fuel with
  | zero => intro n ds h; omega
  | succ fuel ih =>
    intro n ds hlt hpos
    have hd : Nat.digitChar (n % 10) = Char.ofNat (n % 10 + 48) :=
      digitChar_eq_ofNat (n % 10) (Nat.mod_lt n (by decide))
    rw [Nat.digits_def' (by decide) hpos]
    simp only [Nat.toDigitsCore, List.reverse_cons, List.map_append, List.map_cons,
      List.map_nil, List.append_assoc, List.singleton_append, hd]
    split
    · rename_i h0
      rw [h0, Nat.digits_zero]
      rfl
    · rename_i h0
      exact ih (n / 10) _ (by omega) (Nat.pos_of_ne_zero h0)

theorem to_string_eq_decimalNat (n : Nat) : to_string n = decimalNat n := by
  by_cases h : n = 0
  · subst h
    rfl
  · simp only [to_string, Nat.toDigits, decimalNat, if_neg h]
    rw [toDigitsCore_eq_digits (n + 1) n [] (Nat.lt_succ_self n) (Nat.pos_of_ne_zero h)]
    simp

/-- What `stream << i` writes is the decimal representation of `i`. -/
theorem showInt_eq_decimal (i : Int) : showInt i = decimal i := by
  cases i with
  | ofNat n =>
    have hneg : ¬ (Int.ofNat n < 0) := by simp
    have habs : (Int.ofNat n).natAbs = n := rfl
    simp only [showInt, decimal, if_neg hneg, habs, to_string_eq_decimalNat]
  | negSucc n =>
    have hneg : Int.negSucc n < 0 := Int.negSucc_lt_zero n
    have habs : (Int.negSucc n).natAbs = n + 1 := rfl
    simp only [showInt, decimal, if_pos hneg, habs, to_string_eq_decimalNat]

namespace HttpRequest

/-- C1: for every request (its method is `Get`, the one enumerator), `ToString` returns
`GET`, a space, the URI, a space, `HTTP/`, the decimal representation of the major
version, `.`, the decimal representation of the minor version, CR LF, then one line
`name: value` CR LF per entry of the table in table order, then CR LF, then the body, and
nothing else. -/
theorem ToString_layout (r : HttpRequest) (hm : r.Method = Get) :
    r.ToString = some ("GET".toList ++ " ".toList ++ r.URI ++ " ".toList
      ++ "HTTP/".toList ++ decimal r.MajorVersion ++ ".".toList
      ++ decimal r.MinorVersion ++ "\r\n".toList
      ++ (r.Fields.entries.map
          (fun field => field.1 ++ ": ".toList ++ field.2 ++ "\r\n".toList)).flatten
      ++ "\r\n".toList ++ r.Body) := by
  rw [ToString_Get r hm, showInt_eq_decimal, showInt_eq_decimal]
  have hfun : headerLine
      = fun field => field.1 ++ ": ".toList ++ field.2 ++ "\r\n".toList := by
    funext field
    simp [headerLine]
  rw [hfun]
  simp

/-- C1 at the request of `main`, whose bytes are spelled out, together with the numerals
of 10 and -3 and the bytes of a request with these versions, two entries and a body. -/
theorem ToString_layout_witness :
    mainRequest.Method = Get ∧
      mainRequest.ToString = some ("GET".toList ++ " ".toList ++ mainRequest.URI ++ " ".toList
        ++ "HTTP/".toList ++ decimal mainRequest.MajorVersion ++ ".".toList
        ++ decimal mainRequest.MinorVersion ++ "\r\n".toList
        ++ (mainRequest.Fields.entries.map
            (fun field => field.1 ++ ": ".toList ++ field.2 ++ "\r\n".toList)).flatten
        ++ "\r\n".toList ++ mainRequest.Body) ∧
      mainRequest.ToString = some ("GET /http-basics HTTP/1.1\r\nConnection: keep-alive\r\n"
        ++ "User-Agent: violet\r\nHost: violet\r\nHost: www.steves-internet-guide.com\r\n"
        ++ "Content-Length: 0\r\n\r\n").toList ∧
      decimal 1 = "1".toList ∧ decimal 10 = "10".toList ∧ decimal (-3) = "-3".toList ∧
      ToString
          { URI := "/a b".toList, MajorVersion := 10, MinorVersion := -3,
            Fields := ⟨[("A".toList, "1".toList), ("B".toList, [])]⟩, Body := "xyz".toList }
        = some "GET /a b HTTP/10.-3\r\nA: 1\r\nB: \r\n\r\nxyz".toList :=
  ⟨by decide, ToString_layout mainRequest (by decide), by decide,
    (showInt_eq_decimal 1).symm.trans (by decide),
    (showInt_eq_decimal 10).symm.trans (by decide),
    (showInt_eq_decimal (-3)).symm.trans (by decide), by decide⟩

/-- C2, amended: `ToString` derives nothing from the body: the bytes it writes before the
body are the same whatever the body is, and the body follows them as it is, so no
`Content-Length` line is injected. The line is in the output when the caller put it into
`Fields`: after `Fields.Add("Content-Length", std::to_string(Body.size()))`, the call of
`main`, the output is the request line, the lines of the entries held before, the line
`Content-Length: ` with the decimal representation of the body length, CR LF, the blank
line and the body. -/
theorem ToString_content_length_from_caller (r : HttpRequest) (hm : r.Method = Get) :
    (∃ head, ToString { r with Body := [] } = some head ∧
        ∀ body : Str, ToString { r with Body := body } = some (head ++ body)) ∧
      ToString { r with
          Fields := r.Fields.Add "Content-Length".toList (to_string r.Body.length) }
        = some (requestLine r ++ "\r\n".toList
            ++ (r.Fields.entries.map headerLine).flatten
            ++ "Content-Length: ".toList ++ decimalNat r.Body.length ++ "\r\n".toList
            ++ "\r\n".toList ++ r.Body) := by
  constructor
  · refine ⟨_, ToString_Get { r with Body := [] } hm, fun body => ?_⟩
    rw [ToString_Get { r with Body := body } hm]
    simp
  · have h := ToString_Get
      { r with Fields := r.Fields.Add "Content-Length".toList (to_string r.Body.length) } hm
    rw [h, ← to_string_eq_decimalNat]
    simp [requestLine, headerLine, FieldTable.Add]

/-- C2, amended, at a `Get` request with the nine-byte body `Wikipedia`; the bytes with
the entry added are spelled out. -/
theorem ToString_content_length_from_caller_witness :
    (HttpRequest.mk "/upload".toList Get {} 1 1 "Wikipedia".toList).Method = Get ∧
      ((∃ head, ToString { HttpRequest.mk "/upload".toList Get {} 1 1 "Wikipedia".toList with
            Body := [] } = some head ∧
          ∀ body : Str,
            ToString { HttpRequest.mk "/upload".toList Get {} 1 1 "Wikipedia".toList with
              Body := body } = some (head ++ body)) ∧
        ToString { HttpRequest.mk "/upload".toList Get {} 1 1 "Wikipedia".toList with
            Fields := (HttpRequest.mk "/upload".toList Get {} 1 1
                "Wikipedia".toList).Fields.Add "Content-Length".toList
              (to_string (HttpRequest.mk "/upload".toList Get {} 1 1
                "Wikipedia".toList).Body.length) }
          = some (requestLine (HttpRequest.mk "/upload".toList Get {} 1 1 "Wikipedia".toList)
              ++ "\r\n".toList
              ++ ((HttpRequest.mk "/upload".toList Get {} 1 1
                  "Wikipedia".toList).Fields.entries.map headerLine).flatten
              ++ "Content-Length: ".toList
              ++ decimalNat (HttpRequest.mk "/upload".toList Get {} 1 1
                  "Wikipedia".toList).Body.length
              ++ "\r\n".toList ++ "\r\n".toList
              ++ (HttpRequest.mk "/upload".toList Get {} 1 1 "Wikipedia".toList).Body)) ∧
      ToString { HttpRequest.mk "/upload".toList Get {} 1 1 "Wikipedia".toList with
          Fields := (FieldTable.mk []).Add "Content-Length".toList (to_string 9) }
        = some "GET /upload HTTP/1.1\r\nContent-Length: 9\r\n\r\nWikipedia".toList :=
  ⟨rfl,
    ToString_content_length_from_caller
      (HttpRequest.mk "/upload".toList Get {} 1 1 "Wikipedia".toList) rfl,
    by decide⟩

/-- With nothing known about the memory after the table, `ToStringIn` is `ToString`. -/
theorem ToStringIn_nil (r : HttpRequest) : ToStringIn [] r = r.ToString := by
  have htoken : methodTokenIn [] r.Method = (methodToken r.Method).map some := by
    simp only [methodTokenIn, methodToken, List.append_nil]
    split
    · simp [List.getElem?_map]
    · rfl
  cases hm : methodToken r.Method with
  | none => simp [ToStringIn, ToString, htoken, hm]
  | some token => simp [ToStringIn, ToString, htoken, hm]

end HttpRequest

end Violet
